import Mathlib

/-!
A verification development for the `CppPipeline` memory allocation tracer.

The C++ sources under `src/modules/` are shallowly embedded here:

* `capture.cpp`  — the allocation interceptor (`malloc` / `free` / `realloc`
  hooks and `Capture::Impl`): `CaptureState`, `RecordAllocation`,
  `RecordDeallocationTr`, `mallocHook`, `freeHook`, `reallocHook`.
* `storage.cpp`  — the indexed event store (`Storage::Impl`): `StorageState`,
  `Storage.AddAllocation`, the query family, JSON export/import.
* `stats.cpp`    — the statistics aggregator (`Stats::Impl`): `StatsState`,
  `Stats.AddAllocation`, `Stats.RecordDeallocation`.

Machine conventions: `void*` pointers are modelled as `Nat`, with `0` playing
the role of `nullptr` (the "released" sentinel); `size_t` / `uint64_t` /
`uint32_t` values are modelled as `Nat` (none of the verified paths overflow:
they only add event sizes and counts); `int` is `Int`.  `std::map` and
`std::unordered_map` are modelled as association lists with unique keys,
through the `mapFind` / `mapSet` / `mapErase` / `mapAppendIdx` / `mapIncr`
helpers below.  `std::vector` is `List`, with `push_back` as `· ++ [x]` and
`erase(begin())` as `List.drop 1`.
-/

namespace MemTracer

/-- Lookup in an association list; models `std::map::find` /
`std::unordered_map::find` (returns the mapped value when the key is present). -/
def mapFind {κ ν : Type} [DecidableEq κ] : List (κ × ν) → κ → Option ν
  | [], _ => none
  | (k, v) :: rest, key => if k = key then some v else mapFind rest key

/-- Insert-or-assign; models `m[key] = value` on a `std::map`. -/
def mapSet {κ ν : Type} [DecidableEq κ] : List (κ × ν) → κ → ν → List (κ × ν)
  | [], key, value => [(key, value)]
  | (k, v) :: rest, key, value =>
      if k = key then (k, value) :: rest else (k, v) :: mapSet rest key value

/-- Remove the entry a successful `find` would return; models
`m.erase(it)` after `it = m.find(key)`. -/
def mapErase {κ ν : Type} [DecidableEq κ] : List (κ × ν) → κ → List (κ × ν)
  | [], _ => []
  | (k, v) :: rest, key => if k = key then rest else (k, v) :: mapErase rest key

/-- Append a position to the list held at `key`, default-constructing an empty
list first when the key is absent; models `m[key].push_back(idx)` on a
`std::unordered_map<std::string, std::vector<size_t>>`. -/
def mapAppendIdx {κ : Type} [DecidableEq κ] :
    List (κ × List Nat) → κ → Nat → List (κ × List Nat)
  | [], key, idx => [(key, [idx])]
  | (k, v) :: rest, key, idx =>
      if k = key then (k, v ++ [idx]) :: rest else (k, v) :: mapAppendIdx rest key idx

/-- Add `amount` to the counter held at `key`, default-constructing `0` when
absent; models `m[key] += amount` on a counting `std::map`. -/
def mapIncr {κ : Type} [DecidableEq κ] : List (κ × Nat) → κ → Nat → List (κ × Nat)
  | [], key, amount => [(key, amount)]
  | (k, v) :: rest, key, amount =>
      if k = key then (k, v + amount) :: rest else (k, v) :: mapIncr rest key amount

/-- The one record that moves through the pipeline; embeds
`memory_tracer::capture::AllocationInfo` (capture.h).  `address = 0` models
the `nullptr` "released" sentinel.  The `double avg_size`-style fields live
only in the Stats module and are treated there. -/
structure AllocationInfo where
  timestamp : Nat
  address : Nat
  size : Nat
  function : String
  file : String
  line : Int
  thread_id : Nat
  stack_trace : List String
deriving DecidableEq, Repr

/-- State of `Capture::Impl` (capture.cpp): the `capturing_` gate, the
append-only `allocations_` event log, and the `active_allocations_` map from
live address to event-log position. -/
structure CaptureState where
  capturing : Bool
  allocations : List AllocationInfo
  active_allocations : List (Nat × Nat)
deriving DecidableEq, Repr

/-- Freshly constructed `Capture::Impl` (constructor at capture.cpp:21). -/
def CaptureState.init : CaptureState :=
  { capturing := false, allocations := [], active_allocations := [] }

/-- `allocations_[idx].address = nullptr` (capture.cpp:110): clear the
`address` field of the event at position `idx` to the released sentinel. -/
def setReleased : List AllocationInfo → Nat → List AllocationInfo
  | [], _ => []
  | e :: rest, 0 => { e with address := 0 } :: rest
  | e :: rest, n + 1 => e :: setReleased rest n

/-- `Capture::Impl::RecordAllocation` (capture.cpp:80-101).  The timestamp,
thread id and captured stack are inputs here: in the source they are read
from the environment (`GetTimestamp`, `GetThreadId`, `CaptureStackTrace`).
`function` and `file` are the nullable `const char*` arguments; `none` models
a null pointer and is replaced by `"unknown"` exactly as in the source. -/
def RecordAllocation (s : CaptureState) (address size : Nat)
    (function file : Option String) (line : Int)
    (timestamp thread_id : Nat) (stack : List String) : CaptureState :=
  if s.capturing = false then s
  else
    let info : AllocationInfo :=
      { timestamp := timestamp, address := address, size := size,
        function := function.getD "unknown", file := file.getD "unknown",
        line := line, thread_id := thread_id, stack_trace := stack }
    let allocations := s.allocations ++ [info]
    { s with
      allocations := allocations,
      active_allocations := mapSet s.active_allocations address (allocations.length - 1) }

/-- Observable actions of the hook bodies, used to state ordering facts:
`consultActive a` is the `active_allocations_.find(a)` lookup,
`markReleased a` the live-to-released transition, and `callUnderlying` the
call into the resolved underlying primitive (`real_free` etc.). -/
inductive HookAction where
  | consultActive (address : Nat)
  | markReleased (address : Nat)
  | callUnderlying (primitive : String) (address : Nat)
deriving DecidableEq, Repr

/-- `Capture::Impl::RecordDeallocation` (capture.cpp:103-113), instrumented
with the trace of observable actions it performs: return early when not
capturing; otherwise consult the live-address map and, when the address is
found, clear the event's address and drop the map entry. -/
def RecordDeallocationTr (s : CaptureState) (address : Nat) :
    CaptureState × List HookAction :=
  if s.capturing = false then (s, [])
  else
    match mapFind s.active_allocations address with
    | none => (s, [HookAction.consultActive address])
    | some idx =>
        ({ s with
           allocations := setReleased s.allocations idx,
           active_allocations := mapErase s.active_allocations address },
         [HookAction.consultActive address, HookAction.markReleased address])

/-- `Capture::Impl::RecordDeallocation`, state part only. -/
def RecordDeallocation (s : CaptureState) (address : Nat) : CaptureState :=
  (RecordDeallocationTr s address).1

/-- The hooked `malloc` (capture.cpp:154-167) in the steady state
(`real_malloc` resolved, `g_capture_impl` installed): `ptr` is the pointer
the underlying allocator returned; the hook then records an allocation
labelled `"malloc"` with null file and line `0`. -/
def mallocHook (s : CaptureState) (ptr size timestamp thread_id : Nat)
    (stack : List String) : CaptureState :=
  RecordAllocation s ptr size (some "malloc") none 0 timestamp thread_id stack

/-- The hooked `free` (capture.cpp:170-181) in the steady state: for a
non-null pointer the deallocation is recorded first, then the underlying
`real_free` is called; for a null pointer only the underlying free runs. -/
def freeHook (s : CaptureState) (ptr : Nat) : CaptureState × List HookAction :=
  if ptr ≠ 0 then
    let step := RecordDeallocationTr s ptr
    (step.1, step.2 ++ [HookAction.callUnderlying "free" ptr])
  else (s, [HookAction.callUnderlying "free" ptr])

/-- The hooked `realloc` (capture.cpp:184-201) in the steady state: `newPtr`
is the pointer returned by the underlying `real_realloc`; the hook then
records a deallocation for the old pointer when non-null, followed by an
allocation labelled `"realloc"` for the new pointer when non-null. -/
def reallocHook (s : CaptureState) (ptr newPtr size timestamp thread_id : Nat)
    (stack : List String) : CaptureState :=
  let s1 := if ptr ≠ 0 then RecordDeallocation s ptr else s
  if newPtr ≠ 0 then
    RecordAllocation s1 newPtr size (some "realloc") none 0 timestamp thread_id stack
  else s1

/-- One recorder call, for reasoning about arbitrary interleavings of
`RecordAllocation` and `RecordDeallocation`. -/
inductive CaptureOp where
  | record (address size : Nat) (function file : Option String) (line : Int)
      (timestamp thread_id : Nat) (stack : List String)
  | release (address : Nat)
deriving DecidableEq, Repr

/-- Apply one recorder call to the capture state. -/
def CaptureState.step (s : CaptureState) : CaptureOp → CaptureState
  | CaptureOp.record a n f fl l ts tid st => RecordAllocation s a n f fl l ts tid st
  | CaptureOp.release a => RecordDeallocation s a

/-- Run a sequence of recorder calls. -/
def CaptureState.run (s : CaptureState) : List CaptureOp → CaptureState
  | [] => s
  | op :: ops => CaptureState.run (s.step op) ops

/-- Number of events in an event log that are live at address `a`. -/
def liveCountL (L : List AllocationInfo) (a : Nat) : Nat :=
  (L.filter (fun e => e.address == a)).length

/-- Number of events in the log that are live at address `a`. -/
def liveCount (s : CaptureState) (a : Nat) : Nat :=
  liveCountL s.allocations a

/-- The live-address-map invariant of `Capture::Impl`: the map keys are
unique, the sentinel address is never a key, and every non-sentinel address
either is absent from the map with no live event, or maps to the position of
the unique live event carrying it. -/
def ActiveInv (s : CaptureState) : Prop :=
  (s.active_allocations.map Prod.fst).Nodup ∧
  mapFind s.active_allocations 0 = none ∧
  ∀ a : Nat, a ≠ 0 →
    (mapFind s.active_allocations a = none ∧ liveCount s a = 0) ∨
    (∃ i e, mapFind s.active_allocations a = some i ∧ s.allocations.get? i = some e ∧
      e.address = a ∧ liveCount s a = 1)

/-- Allocator-consistency of a call sequence: every `record` carries a
non-sentinel address that is not currently live (a real allocator never
returns an address that is still allocated).  `release` calls are
unconstrained. -/
def freshOps (s : CaptureState) : List CaptureOp → Bool
  | [] => true
  | op :: ops =>
      (match op with
       | CaptureOp.record a _ _ _ _ _ _ _ =>
           decide (a ≠ 0) && (mapFind s.active_allocations a).isNone
       | CaptureOp.release _ => true)
      && freshOps (s.step op) ops

/-- Result of a store query; embeds `memory_tracer::storage::QueryResult`
(storage.h).  The default constructor zeroes the three counters. -/
structure QueryResult where
  allocations : List AllocationInfo
  total_count : Nat
  total_size : Nat
  peak_usage : Nat
deriving DecidableEq, Repr

/-- State of `Storage::Impl` (storage.cpp): the event log, the by-function,
by-file and by-time secondary indexes, and the configured cap.  The
`data_dir_` string only feeds file IO and the log line, and is not
modelled. -/
structure StorageState where
  allocations : List AllocationInfo
  function_index : List (String × List Nat)
  file_index : List (String × List Nat)
  time_index : List (Nat × Nat)
  max_allocations : Nat
deriving DecidableEq, Repr

/-- Freshly constructed `Storage::Impl` with cap `cap`; the source
constructor (storage.cpp:15) picks `cap = 1000000`. -/
def StorageState.init (cap : Nat) : StorageState :=
  { allocations := [], function_index := [], file_index := [],
    time_index := [], max_allocations := cap }

/-- Insert a `(timestamp, position)` pair into a list sorted by timestamp;
helper for `sortByFst`. -/
def insertByFst (p : Nat × Nat) : List (Nat × Nat) → List (Nat × Nat)
  | [] => [p]
  | q :: rest => if p.1 < q.1 then p :: q :: rest else q :: insertByFst p rest

/-- Sort a `(timestamp, position)` list by its first component; models the
`std::sort` on `time_index_` with comparator `a.first < b.first`
(storage.cpp:48-49; the order among equal timestamps is unspecified in the
source, insertion sort fixes one). -/
def sortByFst : List (Nat × Nat) → List (Nat × Nat)
  | [] => []
  | p :: rest => insertByFst p (sortByFst rest)

/-- `Storage::Impl::AddAllocation` (storage.cpp:32-50): when the log has
reached the cap the oldest event is erased from the log (the secondary
indexes are NOT rewritten), then the event is appended and its position
`allocations.size() - 1` is pushed onto the function, file and time
indexes. -/
def Storage.AddAllocation (s : StorageState) (info : AllocationInfo) : StorageState :=
  let base :=
    if s.allocations.length ≥ s.max_allocations then s.allocations.drop 1
    else s.allocations
  let allocations := base ++ [info]
  { allocations := allocations,
    function_index := mapAppendIdx s.function_index info.function (allocations.length - 1),
    file_index := mapAppendIdx s.file_index info.file (allocations.length - 1),
    time_index := sortByFst (s.time_index ++ [(info.timestamp, allocations.length - 1)]),
    max_allocations := s.max_allocations }

/-- The body of the position loops in `QueryByFunction` / `QueryByFile`
(storage.cpp:67-76, 91-100): a stored position contributes the event it
resolves to when it is in range and that event is live, and is skipped
otherwise. -/
def resolveLive (L : List AllocationInfo) (idx : Nat) : Option AllocationInfo :=
  match L.get? idx with
  | some info => if info.address ≠ 0 then some info else none
  | none => none

/-- `Storage::Impl::CalculatePeakUsage` (storage.cpp:300-308): running
maximum of the sizes of the result's events, starting from `0`. -/
def CalculatePeakUsage (events : List AllocationInfo) : Nat :=
  events.foldl (fun peak info => if info.size > peak then info.size else peak) 0

/-- Package a list of collected events as a `QueryResult`: the query loops
increment `total_count` and add `info.size` to `total_size` once per pushed
event, then `CalculatePeakUsage` fills `peak_usage`. -/
def mkQueryResult (events : List AllocationInfo) : QueryResult :=
  { allocations := events,
    total_count := events.length,
    total_size := (events.map (fun e => e.size)).sum,
    peak_usage := CalculatePeakUsage events }

/-- `Storage::Impl::QueryByFunction` (storage.cpp:58-80): look the name up in
the function index (an absent key returns the default-constructed empty
result), resolve each stored position, keep the live ones. -/
def Storage.QueryByFunction (s : StorageState) (function_name : String) : QueryResult :=
  match mapFind s.function_index function_name with
  | none => mkQueryResult []
  | some idxs => mkQueryResult (idxs.filterMap (resolveLive s.allocations))

/-- `Storage::Impl::QueryByFile` (storage.cpp:82-104), same shape as
`QueryByFunction` over the file index. -/
def Storage.QueryByFile (s : StorageState) (file_path : String) : QueryResult :=
  match mapFind s.file_index file_path with
  | none => mkQueryResult []
  | some idxs => mkQueryResult (idxs.filterMap (resolveLive s.allocations))

/-- `Storage::Impl::QueryBySizeRange` (storage.cpp:106-120): scan the whole
log, keep live events whose size lies in the inclusive range. -/
def Storage.QueryBySizeRange (s : StorageState) (min_size max_size : Nat) : QueryResult :=
  mkQueryResult (s.allocations.filter
    (fun info => info.address != 0 && min_size ≤ info.size && info.size ≤ max_size))

/-- `Storage::Impl::QueryByTimeRange` (storage.cpp:122-138): keep (and count)
every event in the inclusive time range, live or released, but add a size to
`total_size` only when the event is live; `peak_usage` ranges over all
returned events. -/
def Storage.QueryByTimeRange (s : StorageState) (start_time end_time : Nat) : QueryResult :=
  let events := s.allocations.filter
    (fun info => start_time ≤ info.timestamp && info.timestamp ≤ end_time)
  { allocations := events,
    total_count := events.length,
    total_size := ((events.filter (fun info => info.address != 0)).map (fun e => e.size)).sum,
    peak_usage := CalculatePeakUsage events }

/-- `Storage::Impl::GetLeaks` (storage.cpp:140-151): every event still live. -/
def Storage.GetLeaks (s : StorageState) : List AllocationInfo :=
  s.allocations.filter (fun info => info.address != 0)

/-- The JSON summary produced by `Storage::Impl::GetSummary`
(storage.cpp:153-180), as a record; `data_dir` is a constant string field
and is not modelled. -/
structure StorageSummary where
  total_allocations : Nat
  unique_functions : Nat
  by_function : List (String × Nat × Nat)
deriving DecidableEq, Repr

/-- `Storage::Impl::GetSummary` (storage.cpp:153-180): per function-index
entry, count and total size over the positions that are in range. -/
def Storage.GetSummary (s : StorageState) : StorageSummary :=
  { total_allocations := s.allocations.length,
    unique_functions := s.function_index.length,
    by_function := s.function_index.map (fun entry =>
      let resolved := entry.2.filterMap (fun idx => s.allocations.get? idx)
      (entry.1, resolved.length, (resolved.map (fun e => e.size)).sum)) }

/-- One element of the `"allocations"` JSON array written by
`Storage::Impl::ExportToJson` (storage.cpp:189-200); the pointer is
serialized as an unsigned integer. -/
structure ExportedAllocation where
  timestamp : Nat
  address : Nat
  size : Nat
  function : String
  file : String
  line : Int
  thread_id : Nat
  stack_trace : List String
deriving DecidableEq, Repr

/-- The JSON record written for one event (storage.cpp:190-199). -/
def exportEntry (info : AllocationInfo) : ExportedAllocation :=
  { timestamp := info.timestamp, address := info.address, size := info.size,
    function := info.function, file := info.file, line := info.line,
    thread_id := info.thread_id, stack_trace := info.stack_trace }

/-- `Storage::Impl::ExportToJson` (storage.cpp:182-212), modelled as the JSON
array it writes (the `ofstream` plumbing and the `catch` branch are file IO
and are not modelled). -/
def Storage.ExportToJson (s : StorageState) : List ExportedAllocation :=
  s.allocations.map exportEntry

/-- The `AllocationInfo` rebuilt from one imported JSON item
(storage.cpp:227-235); the integer address is cast back to a pointer. -/
def importEntry (item : ExportedAllocation) : AllocationInfo :=
  { timestamp := item.timestamp, address := item.address, size := item.size,
    function := item.function, file := item.file, line := item.line,
    thread_id := item.thread_id, stack_trace := item.stack_trace }

/-- The loop body of `Storage::Impl::ImportFromJson` (storage.cpp:226-243):
append the rebuilt event to the log and push its position onto the three
indexes (no cap check and no re-sort of the time index on import). -/
def importOne (s : StorageState) (item : ExportedAllocation) : StorageState :=
  let info := importEntry item
  let allocations := s.allocations ++ [info]
  { s with
    allocations := allocations,
    function_index := mapAppendIdx s.function_index info.function (allocations.length - 1),
    file_index := mapAppendIdx s.file_index info.file (allocations.length - 1),
    time_index := s.time_index ++ [(info.timestamp, allocations.length - 1)] }

/-- `Storage::Impl::ImportFromJson` (storage.cpp:214-252), modelled on a
successfully parsed `"allocations"` array (the stream and parse-failure
branches are file IO and are not modelled). -/
def Storage.ImportFromJson (s : StorageState) (items : List ExportedAllocation) : StorageState :=
  items.foldl importOne s

/-- Minimum timestamp in the log (`std::min_element` at storage.cpp:261-262);
only meaningful on a non-empty log. -/
def minTimestamp : List AllocationInfo → Nat
  | [] => 0
  | e :: rest => rest.foldl (fun m i => if i.timestamp < m then i.timestamp else m) e.timestamp

/-- `Storage::Impl::GetAllocationTimeline` (storage.cpp:254-285): for an
empty log return the empty array; otherwise accumulate the sizes of live
events into buckets aligned to the minimum timestamp and return the buckets
in ascending key order (`std::map` iteration).  The `max_time` computed by
the source is never used and is omitted. -/
def Storage.GetAllocationTimeline (s : StorageState) (bucket_size_ns : Nat) : List (Nat × Nat) :=
  if s.allocations.isEmpty then []
  else
    let min_time := minTimestamp s.allocations
    let timeline := s.allocations.foldl (fun tl info =>
      if info.address ≠ 0 then
        mapIncr tl ((info.timestamp - min_time) / bucket_size_ns * bucket_size_ns + min_time) info.size
      else tl) []
    sortByFst timeline

/-- `Storage::Impl::SetMaxAllocations` (storage.cpp:287-289): assigns the cap
and nothing else. -/
def Storage.SetMaxAllocations (s : StorageState) (max_allocations : Nat) : StorageState :=
  { s with max_allocations := max_allocations }

/-- The read-only operations of `Storage::Impl`, as one sum type. -/
inductive StorageQuery where
  | byFunction (function_name : String)
  | byFile (file_path : String)
  | bySizeRange (min_size max_size : Nat)
  | byTimeRange (start_time end_time : Nat)
  | leaks
  | summary
  | timeline (bucket_size_ns : Nat)
deriving DecidableEq, Repr

/-- Answers of the read-only operations. -/
inductive StorageAnswer where
  | result (r : QueryResult)
  | events (l : List AllocationInfo)
  | summarized (s : StorageSummary)
  | timeline (l : List (Nat × Nat))
deriving DecidableEq, Repr

/-- A read-only `Storage` call in state-passing form: the method bodies
(storage.cpp:58-180, 254-285) read the members under the lock and write none
of them, so each call returns its answer together with the member state it
leaves behind, which is the member state it found. -/
def Storage.QueryCall (s : StorageState) : StorageQuery → StorageState × StorageAnswer
  | StorageQuery.byFunction name => (s, StorageAnswer.result (Storage.QueryByFunction s name))
  | StorageQuery.byFile path => (s, StorageAnswer.result (Storage.QueryByFile s path))
  | StorageQuery.bySizeRange lo hi => (s, StorageAnswer.result (Storage.QueryBySizeRange s lo hi))
  | StorageQuery.byTimeRange t0 t1 => (s, StorageAnswer.result (Storage.QueryByTimeRange s t0 t1))
  | StorageQuery.leaks => (s, StorageAnswer.events (Storage.GetLeaks s))
  | StorageQuery.summary => (s, StorageAnswer.summarized (Storage.GetSummary s))
  | StorageQuery.timeline b => (s, StorageAnswer.timeline (Storage.GetAllocationTimeline s b))

/-- Build a store by feeding a list of events through `AddAllocation`,
starting from a fresh store with cap `cap`. -/
def buildStore (cap : Nat) (L : List AllocationInfo) : StorageState :=
  L.foldl Storage.AddAllocation (StorageState.init cap)

/-- Per-function counters; embeds `memory_tracer::stats::FunctionStats`
(stats.h).  The `double avg_size` field is floating point and is not
modelled; no claim mentions it.  The default constructor zeroes every
counter. -/
structure FunctionStats where
  function_name : String
  allocation_count : Nat
  total_allocated : Nat
  current_allocated : Nat
  peak_allocated : Nat
  size_distribution : List (Nat × Nat)
deriving DecidableEq, Repr

/-- Default-constructed `FunctionStats` (what `std::map::operator[]`
creates for an absent key). -/
def FunctionStats.init : FunctionStats :=
  { function_name := "", allocation_count := 0, total_allocated := 0,
    current_allocated := 0, peak_allocated := 0, size_distribution := [] }

/-- Per-file counters; embeds `memory_tracer::stats::FileStats` (stats.h).
The struct has no user constructor, so `operator[]` value-initializes it. -/
structure FileStats where
  file_path : String
  allocation_count : Nat
  total_allocated : Nat
  current_allocated : Nat
  function_counts : List (String × Nat)
deriving DecidableEq, Repr

/-- Value-initialized `FileStats`. -/
def FileStats.init : FileStats :=
  { file_path := "", allocation_count := 0, total_allocated := 0,
    current_allocated := 0, function_counts := [] }

/-- The live-address side table entry `Stats::Impl::AllocationTracking`
(stats.cpp:284-288). -/
structure AllocationTracking where
  function : String
  size : Nat
  stack_trace : List String
deriving DecidableEq, Repr

/-- State of `Stats::Impl` (stats.cpp). -/
structure StatsState where
  function_stats : List (String × FunctionStats)
  file_stats : List (String × FileStats)
  call_stack_stats : List (String × Nat)
  allocation_tracking : List (Nat × AllocationTracking)
  total_allocations : Nat
  total_memory_allocated : Nat
deriving DecidableEq, Repr

/-- Freshly constructed `Stats::Impl`. -/
def StatsState.init : StatsState :=
  { function_stats := [], file_stats := [], call_stack_stats := [],
    allocation_tracking := [], total_allocations := 0, total_memory_allocated := 0 }

/-- `Stats::Impl::BuildStackKey` (stats.cpp:256-263): the first (up to) five
innermost frames joined by a fixed separator. -/
def BuildStackKey (stack_trace : List String) : String :=
  String.intercalate " <- " (stack_trace.take 5)

/-- `Stats::Impl::AddAllocation` (stats.cpp:22-63): bump the per-function
counters (count, total, current, peak, per-exact-size distribution), the
per-file counters, the call-stack fingerprint counter, the two running
totals, and overwrite the live-address side table entry for the event's
address.  The `avg_size` update (stats.cpp:31) is floating point and is not
modelled. -/
def Stats.AddAllocation (s : StatsState) (info : AllocationInfo) : StatsState :=
  let fs0 := (mapFind s.function_stats info.function).getD FunctionStats.init
  let fs1 : FunctionStats :=
    { function_name := info.function,
      allocation_count := fs0.allocation_count + 1,
      total_allocated := fs0.total_allocated + info.size,
      current_allocated := fs0.current_allocated + info.size,
      peak_allocated := if info.size > fs0.peak_allocated then info.size else fs0.peak_allocated,
      size_distribution := mapIncr fs0.size_distribution info.size 1 }
  let fl0 := (mapFind s.file_stats info.file).getD FileStats.init
  let fl1 : FileStats :=
    { fl0 with
      file_path := info.file,
      allocation_count := fl0.allocation_count + 1,
      total_allocated := fl0.total_allocated + info.size,
      function_counts := mapIncr fl0.function_counts info.function 1 }
  { function_stats := mapSet s.function_stats info.function fs1,
    file_stats := mapSet s.file_stats info.file fl1,
    call_stack_stats := mapIncr s.call_stack_stats (BuildStackKey info.stack_trace) 1,
    allocation_tracking :=
      mapSet s.allocation_tracking info.address
        { function := info.function, size := info.size, stack_trace := info.stack_trace },
    total_allocations := s.total_allocations + 1,
    total_memory_allocated := s.total_memory_allocated + info.size }

/-- `Stats::Impl::RecordDeallocation` (stats.cpp:65-77): when the address is
tracked, decrement the owning function's `current_allocated` by the tracked
size — guarded so the counter never underflows — and drop the tracking
entry.  The `function_stats_[tracking.function]` access is `operator[]` and
default-constructs an entry when absent, which `mapSet` reproduces. -/
def Stats.RecordDeallocation (s : StatsState) (address : Nat) : StatsState :=
  match mapFind s.allocation_tracking address with
  | none => s
  | some tracking =>
      let fs0 := (mapFind s.function_stats tracking.function).getD FunctionStats.init
      let fs1 :=
        if fs0.current_allocated ≥ tracking.size then
          { fs0 with current_allocated := fs0.current_allocated - tracking.size }
        else fs0
      { s with
        function_stats := mapSet s.function_stats tracking.function fs1,
        allocation_tracking := mapErase s.allocation_tracking address }

/-- One call into the aggregator. -/
inductive StatsOp where
  | alloc (info : AllocationInfo)
  | dealloc (address : Nat)
deriving DecidableEq, Repr

/-- Apply one aggregator call. -/
def Stats.step (s : StatsState) : StatsOp → StatsState
  | StatsOp.alloc info => Stats.AddAllocation s info
  | StatsOp.dealloc a => Stats.RecordDeallocation s a

/-- Run a sequence of aggregator calls. -/
def Stats.run (s : StatsState) : List StatsOp → StatsState
  | [] => s
  | op :: ops => Stats.run (Stats.step s op) ops

/-- Trace-level live table: the address-to-(function, size, stack) table a
workload induces, computed over the operation list alone.  It evolves
exactly as `allocation_tracking_` does: an allocation overwrites the entry
at its address, a deallocation removes the entry when present (removing an
absent key is a no-op, so the unconditional `mapErase` agrees with the
guarded erase in the source). -/
def ghostStep (t : List (Nat × AllocationTracking)) : StatsOp → List (Nat × AllocationTracking)
  | StatsOp.alloc info =>
      mapSet t info.address
        { function := info.function, size := info.size, stack_trace := info.stack_trace }
  | StatsOp.dealloc a => mapErase t a

/-- Run the trace-level live table over an operation list. -/
def ghostRun (t : List (Nat × AllocationTracking)) : List StatsOp → List (Nat × AllocationTracking)
  | [] => t
  | op :: ops => ghostRun (ghostStep t op) ops

/-- Allocator-consistency of an aggregator workload: every allocation is
submitted at an address that is not currently live. -/
def freshStatsOps (t : List (Nat × AllocationTracking)) : List StatsOp → Bool
  | [] => true
  | op :: ops =>
      (match op with
       | StatsOp.alloc info => (mapFind t info.address).isNone
       | StatsOp.dealloc _ => true)
      && freshStatsOps (ghostStep t op) ops

/-- The `current_allocated` counter the aggregator reports for function `f`
(`0` when the function was never seen, as for `operator[]`). -/
def currentOf (s : StatsState) (f : String) : Nat :=
  ((mapFind s.function_stats f).getD FunctionStats.init).current_allocated

/-- The `total_allocated` counter the aggregator reports for function `f`. -/
def totalOf (s : StatsState) (f : String) : Nat :=
  ((mapFind s.function_stats f).getD FunctionStats.init).total_allocated

/-- Sum of the tracked sizes belonging to function `f` in a live table. -/
def trackSum (t : List (Nat × AllocationTracking)) (f : String) : Nat :=
  ((t.filter (fun p => p.2.function == f)).map (fun p => p.2.size)).sum

/-- Sum of the sizes of all allocation events labelled `f` in a workload. -/
def allocTotal : List StatsOp → String → Nat
  | [], _ => 0
  | StatsOp.alloc info :: ops, f =>
      (if info.function = f then info.size else 0) + allocTotal ops f
  | StatsOp.dealloc _ :: ops, f => allocTotal ops f

/-- Re-entry structure of the hooked `malloc` as the source builds it
(capture.cpp:154-167 together with `RecordAllocation` at 80-101 and
`CaptureStackTrace` at 127-141): the hook body calls `RecordAllocation`
unconditionally whenever `g_capture_impl` is installed; when `capturing_` is
on, the body of `RecordAllocation` performs `auxAllocs` further heap
allocations of its own (the `std::string` fields of `AllocationInfo`, the
`backward` stack-trace machinery, the vector `push_back` of the event log),
and every one of those allocations is dispatched to this very hook again —
there is no reentrancy flag anywhere in `Capture::Impl`.  `fuel` bounds how
deep we are willing to unfold the nesting; the result is `some d` when the
activation completes with maximal nesting depth `d` below it, and `none`
when the nesting exceeds `fuel`.  With `capturing = false`,
`RecordAllocation` returns at its first line and performs no allocation. -/
def mallocCallDepth : Nat → Bool → Nat → Option Nat
  | 0, _, _ => none
  | _ + 1, false, _ => some 0
  | fuel + 1, true, auxAllocs =>
      if auxAllocs = 0 then some 0
      else
        match mallocCallDepth fuel true auxAllocs with
        | none => none
        | some d => some (d + 1)

/-- Modelled from the spec: the per-thread reentrancy guard the spec mandates
for the interception path ("on entry to the intercepted primitive, the hook
atomically sets a thread-local in-capture flag; if already set, the hook
bypasses recording entirely and calls only the underlying primitive"), which
is missing from `capture.cpp`.  The extra `Bool` is the thread-local
in-capture flag at entry: when it is already set the hook bypasses recording
and performs no nested allocation; otherwise the recording path runs with
the flag set, so each of its `auxAllocs` internal allocations re-enters the
hook with the flag set. -/
def guardedMallocCallDepth : Nat → Bool → Bool → Nat → Option Nat
  | 0, _, _, _ => none
  | _ + 1, _, true, _ => some 0
  | _ + 1, false, false, _ => some 0
  | fuel + 1, true, false, auxAllocs =>
      if auxAllocs = 0 then some 0
      else
        match guardedMallocCallDepth fuel true true auxAllocs with
        | none => none
        | some d => some (d + 1)

/-- Positions (event-log indexes, offset by `k`) of the events in `L` whose
`function` field equals `name`; the reference list the function index of an
eviction-free store is proved equal to. -/
def fnPosAux (key : AllocationInfo → String) : List AllocationInfo → String → Nat → List Nat
  | [], _, _ => []
  | e :: rest, name, k =>
      (if key e = name then [k] else []) ++ fnPosAux key rest name (k + 1)

/-- What the spec asserts about `peak_usage`: the per-event maximum of the
sizes of the returned events, `0` on an empty result. -/
def peakSpec (r : QueryResult) : Prop :=
  (r.allocations = [] → r.peak_usage = 0) ∧
  (∀ e ∈ r.allocations, e.size ≤ r.peak_usage) ∧
  (r.allocations ≠ [] → ∃ e ∈ r.allocations, e.size = r.peak_usage)

/-- Concrete fixture event: a live 10-byte allocation from function `"f"`. -/
def eventF : AllocationInfo :=
  { timestamp := 1, address := 1, size := 10, function := "f", file := "a.c",
    line := 3, thread_id := 7, stack_trace := ["f", "main"] }

/-- Concrete fixture event: a live 20-byte allocation from function `"g"`. -/
def eventG : AllocationInfo :=
  { timestamp := 2, address := 2, size := 20, function := "g", file := "b.c",
    line := 5, thread_id := 7, stack_trace := ["g", "main"] }

/-- A store with cap 1 that has evicted once: `eventF` was inserted first and
evicted when `eventG` arrived. -/
def evictedStore : StorageState :=
  Storage.AddAllocation (Storage.AddAllocation (StorageState.init 1) eventF) eventG

/-- A store with both fixture events retained (cap 10, no eviction). -/
def demoStore : StorageState :=
  Storage.AddAllocation (Storage.AddAllocation (StorageState.init 10) eventF) eventG

/-- A capture state that is actively capturing, with an empty log. -/
def capOn : CaptureState :=
  { capturing := true, allocations := [], active_allocations := [] }

/-- A capture state holding one live event at address 5 whose capture gate
has been turned off (`StartCapture`; record; `StopCapture`). -/
def capOffKnown : CaptureState :=
  { capturing := false,
    allocations := [{ timestamp := 1, address := 5, size := 16, function := "malloc",
                      file := "unknown", line := 0, thread_id := 7, stack_trace := [] }],
    active_allocations := [(5, 0)] }

/-- A capture state holding one live event at address 5 while capturing. -/
def capOnKnown : CaptureState :=
  { capOffKnown with capturing := true }

/-- The fixture event `eventG` after its matching free was observed: its
address is cleared to the released sentinel. -/
def releasedEventG : AllocationInfo :=
  { eventG with address := 0 }

/-- A store holding one live and one released event (cap 10, no eviction). -/
def storeWithReleased : StorageState :=
  buildStore 10 [eventF, releasedEventG]

end MemTracer

namespace MemTracer

/-! ### Helper lemmas -/

theorem foldl_peak_ge_acc (events : List AllocationInfo) :
    ∀ acc : Nat,
      acc ≤ events.foldl (fun peak info => if info.size > peak then info.size else peak) acc := by
  induction events with
  | nil => intro acc; exact Nat.le_refl acc
  | cons e rest ih =>
      intro acc
      refine Nat.le_trans ?_ (ih (if e.size > acc then e.size else acc))
      by_cases h : e.size > acc
      · simp [h]; exact Nat.le_of_lt h
      · simp [h]

theorem foldl_peak_mem_le (events : List AllocationInfo) :
    ∀ acc : Nat, ∀ e ∈ events,
      e.size ≤ events.foldl (fun peak info => if info.size > peak then info.size else peak) acc := by
  induction events with
  | nil => intro acc e he; cases he
  | cons x rest ih =>
      intro acc e he
      rcases List.mem_cons.mp he with h | h
      · subst h
        refine Nat.le_trans ?_ (foldl_peak_ge_acc rest (if e.size > acc then e.size else acc))
        by_cases hx : e.size > acc
        · simp [hx]
        · simp [hx]; exact Nat.le_of_not_lt hx
      · exact ih (if x.size > acc then x.size else acc) e h

theorem foldl_peak_attained (events : List AllocationInfo) :
    ∀ acc : Nat,
      events.foldl (fun peak info => if info.size > peak then info.size else peak) acc = acc ∨
      ∃ e ∈ events,
        events.foldl (fun peak info => if info.size > peak then info.size else peak) acc = e.size := by
  induction events with
  | nil => intro acc; exact Or.inl rfl
  | cons x rest ih =>
      intro acc
      rcases ih (if x.size > acc then x.size else acc) with h | ⟨e, he, h⟩
      · by_cases hx : x.size > acc
        · right; exact ⟨x, List.mem_cons_self x rest, by simpa [hx] using h⟩
        · left; simpa [hx] using h
      · right; exact ⟨e, List.mem_cons_of_mem x he, h⟩

theorem peakSpec_of_calc (r : QueryResult)
    (h : r.peak_usage = CalculatePeakUsage r.allocations) : peakSpec r := by
  refine ⟨?_, ?_, ?_⟩
  · intro hempty; rw [h, hempty]; rfl
  · intro e he; rw [h]; exact foldl_peak_mem_le r.allocations 0 e he
  · intro hne
    rcases foldl_peak_attained r.allocations 0 with hz | ⟨e, he, heq⟩
    · rcases List.exists_mem_of_ne_nil r.allocations hne with ⟨e, he⟩
      refine ⟨e, he, ?_⟩
      have h1 := foldl_peak_mem_le r.allocations 0 e he
      rw [hz] at h1
      rw [h]
      unfold CalculatePeakUsage
      rw [hz]
      omega
    · exact ⟨e, he, by rw [h]; exact heq.symm⟩

theorem addAllocation_length (s : StorageState) (info : AllocationInfo) :
    (Storage.AddAllocation s info).allocations.length =
      (if s.allocations.length ≥ s.max_allocations then s.allocations.length - 1
       else s.allocations.length) + 1 := by
  unfold Storage.AddAllocation
  by_cases h : s.allocations.length ≥ s.max_allocations
  · simp [h]
  · simp [h]

theorem addAllocation_max (s : StorageState) (info : AllocationInfo) :
    (Storage.AddAllocation s info).max_allocations = s.max_allocations := rfl

theorem foldl_add_length_over_cap (es : List AllocationInfo) :
    ∀ s : StorageState, s.allocations.length > s.max_allocations →
      (es.foldl Storage.AddAllocation s).allocations.length = s.allocations.length := by
  induction es with
  | nil => intro s _; rfl
  | cons e rest ih =>
      intro s hs
      have hge : s.allocations.length ≥ s.max_allocations := Nat.le_of_lt hs
      have hpos : 1 ≤ s.allocations.length := by omega
      have hlen : (Storage.AddAllocation s e).allocations.length = s.allocations.length := by
        rw [addAllocation_length]; simp [hge]; omega
      have hstep : (Storage.AddAllocation s e).allocations.length >
          (Storage.AddAllocation s e).max_allocations := by
        rw [hlen, addAllocation_max]; exact hs
      calc (List.foldl Storage.AddAllocation (Storage.AddAllocation s e) rest).allocations.length
          = (Storage.AddAllocation s e).allocations.length := ih _ hstep
        _ = s.allocations.length := hlen

theorem mapFind_mapSet_self {κ ν : Type} [DecidableEq κ] (m : List (κ × ν)) (k : κ) (v : ν) :
    mapFind (mapSet m k v) k = some v := by
  induction m with
  | nil => simp [mapSet, mapFind]
  | cons p rest ih =>
      obtain ⟨pk, pv⟩ := p
      by_cases h : pk = k
      · subst h
        simp [mapSet, mapFind]
      · simp [mapSet, mapFind, h, ih]

theorem mapFind_mapSet_ne {κ ν : Type} [DecidableEq κ] (m : List (κ × ν)) (k k' : κ) (v : ν)
    (h : k' ≠ k) : mapFind (mapSet m k v) k' = mapFind m k' := by
  have h' : ¬ k = k' := fun hh => h hh.symm
  induction m with
  | nil => simp [mapSet, mapFind, h']
  | cons p rest ih =>
      obtain ⟨pk, pv⟩ := p
      by_cases hp : pk = k
      · subst hp
        simp [mapSet, mapFind, h']
      · simp [mapSet, mapFind, hp, ih]

theorem mapFind_mapErase_ne {κ ν : Type} [DecidableEq κ] (m : List (κ × ν)) (k k' : κ)
    (h : k' ≠ k) : mapFind (mapErase m k) k' = mapFind m k' := by
  have h' : ¬ k = k' := fun hh => h hh.symm
  induction m with
  | nil => rfl
  | cons p rest ih =>
      obtain ⟨pk, pv⟩ := p
      by_cases hp : pk = k
      · subst hp
        simp [mapErase, mapFind, h']
      · simp [mapErase, mapFind, hp, ih]

theorem mem_keys_of_mapFind_some {κ ν : Type} [DecidableEq κ] (m : List (κ × ν)) (k : κ)
    (v : ν) (h : mapFind m k = some v) : k ∈ m.map Prod.fst := by
  induction m with
  | nil => simp [mapFind] at h
  | cons p rest ih =>
      obtain ⟨pk, pv⟩ := p
      by_cases hp : pk = k
      · simp [hp]
      · simp [mapFind, hp] at h
        simp [ih h]

theorem mapFind_mapErase_self_of_nodup {κ ν : Type} [DecidableEq κ] (m : List (κ × ν)) (k : κ)
    (hnd : (m.map Prod.fst).Nodup) : mapFind (mapErase m k) k = none := by
  induction m with
  | nil => rfl
  | cons p rest ih =>
      obtain ⟨pk, pv⟩ := p
      rw [List.map_cons] at hnd
      obtain ⟨hnotmem, hnd'⟩ := List.nodup_cons.mp hnd
      by_cases hp : pk = k
      · subst hp
        rw [show mapErase ((pk, pv) :: rest) pk = rest by simp [mapErase]]
        cases hfind : mapFind rest pk with
        | none => rfl
        | some v =>
            exact absurd (mem_keys_of_mapFind_some rest pk v hfind) hnotmem
      · rw [show mapErase ((pk, pv) :: rest) k = (pk, pv) :: mapErase rest k by
            simp [mapErase, hp]]
        rw [show mapFind ((pk, pv) :: mapErase rest k) k =
              if pk = k then some pv else mapFind (mapErase rest k) k from rfl]
        rw [if_neg hp]
        exact ih hnd'

theorem keys_mapSet_sub {κ ν : Type} [DecidableEq κ] (m : List (κ × ν)) (k k' : κ) (v : ν)
    (h : k' ∈ (mapSet m k v).map Prod.fst) : k' ∈ m.map Prod.fst ∨ k' = k := by
  induction m with
  | nil =>
      rw [show mapSet ([] : List (κ × ν)) k v = [(k, v)] from rfl] at h
      rw [List.map_singleton] at h
      exact Or.inr (List.mem_singleton.mp h)
  | cons p rest ih =>
      obtain ⟨pk, pv⟩ := p
      by_cases hp : pk = k
      · subst hp
        rw [show mapSet ((pk, pv) :: rest) pk v = (pk, v) :: rest by simp [mapSet]] at h
        rw [List.map_cons] at h
        rcases List.mem_cons.mp h with h | h
        · exact Or.inr h
        · exact Or.inl (by rw [List.map_cons]; exact List.mem_cons.mpr (Or.inr h))
      · rw [show mapSet ((pk, pv) :: rest) k v = (pk, pv) :: mapSet rest k v by
            simp [mapSet, hp]] at h
        rw [List.map_cons] at h
        rcases List.mem_cons.mp h with h | h
        · exact Or.inl (by rw [List.map_cons]; exact List.mem_cons.mpr (Or.inl h))
        · rcases ih h with h2 | h2
          · exact Or.inl (by rw [List.map_cons]; exact List.mem_cons.mpr (Or.inr h2))
          · exact Or.inr h2

theorem keys_mapSet_nodup {κ ν : Type} [DecidableEq κ] (m : List (κ × ν)) (k : κ) (v : ν)
    (hnd : (m.map Prod.fst).Nodup) : ((mapSet m k v).map Prod.fst).Nodup := by
  induction m with
  | nil => simp [mapSet]
  | cons p rest ih =>
      obtain ⟨pk, pv⟩ := p
      rw [List.map_cons] at hnd
      obtain ⟨hmem, hnd'⟩ := List.nodup_cons.mp hnd
      by_cases hp : pk = k
      · subst hp
        rw [show mapSet ((pk, pv) :: rest) pk v = (pk, v) :: rest by simp [mapSet]]
        rw [List.map_cons]
        exact List.nodup_cons.mpr ⟨hmem, hnd'⟩
      · rw [show mapSet ((pk, pv) :: rest) k v = (pk, pv) :: mapSet rest k v by
            simp [mapSet, hp]]
        rw [List.map_cons]
        refine List.nodup_cons.mpr ⟨?_, ih hnd'⟩
        intro hcontra
        rcases keys_mapSet_sub rest k pk v hcontra with h | h
        · exact hmem h
        · exact hp h

theorem keys_mapErase_sub {κ ν : Type} [DecidableEq κ] (m : List (κ × ν)) (k k' : κ)
    (h : k' ∈ (mapErase m k).map Prod.fst) : k' ∈ m.map Prod.fst := by
  induction m with
  | nil => simp [mapErase] at h
  | cons p rest ih =>
      obtain ⟨pk, pv⟩ := p
      by_cases hp : pk = k
      · subst hp
        rw [show mapErase ((pk, pv) :: rest) pk = rest by simp [mapErase]] at h
        rw [List.map_cons]
        exact List.mem_cons.mpr (Or.inr h)
      · rw [show mapErase ((pk, pv) :: rest) k = (pk, pv) :: mapErase rest k by
            simp [mapErase, hp]] at h
        rw [List.map_cons] at h
        rw [List.map_cons]
        rcases List.mem_cons.mp h with h | h
        · exact List.mem_cons.mpr (Or.inl h)
        · exact List.mem_cons.mpr (Or.inr (ih h))

theorem keys_mapErase_nodup {κ ν : Type} [DecidableEq κ] (m : List (κ × ν)) (k : κ)
    (hnd : (m.map Prod.fst).Nodup) : ((mapErase m k).map Prod.fst).Nodup := by
  induction m with
  | nil => simp [mapErase]
  | cons p rest ih =>
      obtain ⟨pk, pv⟩ := p
      rw [List.map_cons] at hnd
      obtain ⟨hmem, hnd'⟩ := List.nodup_cons.mp hnd
      by_cases hp : pk = k
      · subst hp
        rw [show mapErase ((pk, pv) :: rest) pk = rest by simp [mapErase]]
        exact hnd'
      · rw [show mapErase ((pk, pv) :: rest) k = (pk, pv) :: mapErase rest k by
            simp [mapErase, hp]]
        rw [List.map_cons]
        refine List.nodup_cons.mpr ⟨?_, ih hnd'⟩
        intro hcontra
        exact hmem (keys_mapErase_sub rest k pk hcontra)

theorem liveCountL_append (L : List AllocationInfo) (info : AllocationInfo) (a : Nat) :
    liveCountL (L ++ [info]) a = liveCountL L a + (if info.address = a then 1 else 0) := by
  unfold liveCountL
  rw [List.filter_append]
  by_cases h : info.address = a
  · simp [h]
  · simp [h]

theorem setReleased_get?_self (L : List AllocationInfo) (i : Nat) :
    (setReleased L i).get? i = (L.get? i).map (fun e => { e with address := 0 }) := by
  induction L generalizing i with
  | nil => cases i <;> rfl
  | cons e rest ih =>
      cases i with
      | zero => rfl
      | succ n => simpa [setReleased] using ih n

theorem setReleased_get?_ne (L : List AllocationInfo) (i j : Nat) (h : j ≠ i) :
    (setReleased L i).get? j = L.get? j := by
  induction L generalizing i j with
  | nil => cases i <;> rfl
  | cons e rest ih =>
      cases i with
      | zero =>
          cases j with
          | zero => exact absurd rfl h
          | succ m => rfl
      | succ n =>
          cases j with
          | zero => rfl
          | succ m => simpa [setReleased] using ih n m (fun hh => h (by rw [hh]))

theorem liveCountL_cons (x : AllocationInfo) (l : List AllocationInfo) (a : Nat) :
    liveCountL (x :: l) a = (if x.address = a then 1 else 0) + liveCountL l a := by
  unfold liveCountL
  by_cases h : x.address = a
  · simp [List.filter_cons, h, Nat.add_comm]
  · simp [List.filter_cons, h]

theorem liveCountL_setReleased (L : List AllocationInfo) (i : Nat) (e : AllocationInfo)
    (hget : L.get? i = some e) (a : Nat) (ha : a ≠ 0) :
    liveCountL L a = liveCountL (setReleased L i) a + (if e.address = a then 1 else 0) := by
  induction L generalizing i with
  | nil => simp [List.get?] at hget
  | cons x rest ih =>
      cases i with
      | zero =>
          have hx : x = e := by
            simpa using hget
          subst hx
          rw [show setReleased (x :: rest) 0 = { x with address := 0 } :: rest from rfl,
            liveCountL_cons, liveCountL_cons]
          have h0 : ¬ (0 = a) := fun hh => ha hh.symm
          simp only [h0, if_false]
          omega
      | succ n =>
          have hget' : rest.get? n = some e := by
            simpa using hget
          rw [show setReleased (x :: rest) (n + 1) = x :: setReleased rest n from rfl,
            liveCountL_cons, liveCountL_cons, ih n hget']
          omega

theorem RecordAllocation_not_capturing (s : CaptureState) (hc : s.capturing = false)
    (a n : Nat) (f fl : Option String) (l : Int) (ts tid : Nat) (st : List String) :
    RecordAllocation s a n f fl l ts tid st = s := by
  unfold RecordAllocation
  rw [hc]
  simp

theorem RecordAllocation_capturing (s : CaptureState) (hc : s.capturing = true)
    (a n : Nat) (f fl : Option String) (l : Int) (ts tid : Nat) (st : List String) :
    RecordAllocation s a n f fl l ts tid st =
      { s with
        allocations := s.allocations ++
          [{ timestamp := ts, address := a, size := n, function := f.getD "unknown",
             file := fl.getD "unknown", line := l, thread_id := tid, stack_trace := st }],
        active_allocations := mapSet s.active_allocations a s.allocations.length } := by
  unfold RecordAllocation
  rw [hc]
  simp

theorem RecordDeallocationTr_not_capturing (s : CaptureState) (hc : s.capturing = false)
    (a : Nat) : RecordDeallocationTr s a = (s, []) := by
  unfold RecordDeallocationTr
  rw [hc]
  simp

theorem RecordDeallocationTr_notfound (s : CaptureState) (hc : s.capturing = true) (a : Nat)
    (hf : mapFind s.active_allocations a = none) :
    RecordDeallocationTr s a = (s, [HookAction.consultActive a]) := by
  unfold RecordDeallocationTr
  rw [hc]
  simp [hf]

theorem RecordDeallocationTr_found (s : CaptureState) (hc : s.capturing = true) (a i : Nat)
    (hf : mapFind s.active_allocations a = some i) :
    RecordDeallocationTr s a =
      ({ s with
         allocations := setReleased s.allocations i,
         active_allocations := mapErase s.active_allocations a },
       [HookAction.consultActive a, HookAction.markReleased a]) := by
  unfold RecordDeallocationTr
  rw [hc]
  simp [hf]

theorem RecordAllocation_preserves_ActiveInv (s : CaptureState) (a n : Nat)
    (f fl : Option String) (l : Int) (ts tid : Nat) (st : List String)
    (hInv : ActiveInv s) (ha : a ≠ 0)
    (hfresh : mapFind s.active_allocations a = none) :
    ActiveInv (RecordAllocation s a n f fl l ts tid st) := by
  obtain ⟨hnd, hzero, hmain⟩ := hInv
  cases hc : s.capturing with
  | false => rw [RecordAllocation_not_capturing s hc]; exact ⟨hnd, hzero, hmain⟩
  | true =>
      rw [RecordAllocation_capturing s hc]
      refine ⟨keys_mapSet_nodup _ _ _ hnd, ?_, ?_⟩
      · show mapFind (mapSet s.active_allocations a s.allocations.length) 0 = none
        rw [mapFind_mapSet_ne _ _ _ _ (fun hh => ha hh.symm)]
        exact hzero
      · intro b hb
        by_cases hba : b = a
        · subst hba
          right
          have hcnt0 : liveCountL s.allocations b = 0 := by
            rcases hmain b hb with ⟨_, h0⟩ | ⟨i, e, hf, _⟩
            · exact h0
            · rw [hfresh] at hf
              cases hf
          refine ⟨s.allocations.length, _, mapFind_mapSet_self _ _ _,
            List.get?_concat_length _ _, rfl, ?_⟩
          show liveCountL (s.allocations ++ [_]) b = 1
          rw [liveCountL_append, hcnt0, if_pos rfl]
        · have hmf : mapFind (mapSet s.active_allocations a s.allocations.length) b =
              mapFind s.active_allocations b := mapFind_mapSet_ne _ _ _ _ hba
          have hlc : liveCountL (s.allocations ++
              [{ timestamp := ts, address := a, size := n, function := f.getD "unknown",
                 file := fl.getD "unknown", line := l, thread_id := tid,
                 stack_trace := st }]) b = liveCountL s.allocations b := by
            rw [liveCountL_append, if_neg (fun hh => hba hh.symm)]
            omega
          rcases hmain b hb with ⟨hf, h0⟩ | ⟨i, e, hf, hg, haddr, hcnt⟩
          · left
            refine ⟨by rw [hmf]; exact hf, ?_⟩
            show liveCountL (s.allocations ++ [_]) b = 0
            rw [hlc]
            exact h0
          · right
            have hi : i < s.allocations.length := by
              rcases List.get?_eq_some.mp hg with ⟨hlt, _⟩
              exact hlt
            refine ⟨i, e, by rw [hmf]; exact hf, ?_, haddr, ?_⟩
            · show (s.allocations ++ [_]).get? i = some e
              rw [List.get?_append hi]
              exact hg
            · show liveCountL (s.allocations ++ [_]) b = 1
              rw [hlc]
              exact hcnt

theorem RecordDeallocation_preserves_ActiveInv (s : CaptureState) (a0 : Nat)
    (hInv : ActiveInv s) : ActiveInv (RecordDeallocation s a0) := by
  obtain ⟨hnd, hzero, hmain⟩ := hInv
  unfold RecordDeallocation
  cases hc : s.capturing with
  | false => rw [RecordDeallocationTr_not_capturing s hc]; exact ⟨hnd, hzero, hmain⟩
  | true =>
      cases hfind : mapFind s.active_allocations a0 with
      | none => rw [RecordDeallocationTr_notfound s hc a0 hfind]; exact ⟨hnd, hzero, hmain⟩
      | some i =>
          have ha0 : a0 ≠ 0 := by
            intro hh
            subst hh
            rw [hzero] at hfind
            cases hfind
          rcases hmain a0 ha0 with ⟨hf, _⟩ | ⟨i', e, hf, hg, haddr, hcnt⟩
          · rw [hfind] at hf
            cases hf
          · rw [hfind] at hf
            have hii : i = i' := Option.some.inj hf
            rw [← hii] at hg
            rw [RecordDeallocationTr_found s hc a0 i hfind]
            refine ⟨keys_mapErase_nodup _ _ hnd, ?_, ?_⟩
            · show mapFind (mapErase s.active_allocations a0) 0 = none
              rw [mapFind_mapErase_ne _ _ _ (fun hh => ha0 hh.symm)]
              exact hzero
            · intro b hb
              by_cases hba : b = a0
              · subst hba
                left
                constructor
                · exact mapFind_mapErase_self_of_nodup _ _ hnd
                · show liveCountL (setReleased s.allocations i) b = 0
                  have hdec := liveCountL_setReleased s.allocations i e hg b hb
                  rw [if_pos haddr] at hdec
                  have hcnt' : liveCountL s.allocations b = 1 := hcnt
                  omega
              · have hmf : mapFind (mapErase s.active_allocations a0) b =
                    mapFind s.active_allocations b := mapFind_mapErase_ne _ _ _ hba
                have hlc : liveCountL (setReleased s.allocations i) b =
                    liveCountL s.allocations b := by
                  have hdec := liveCountL_setReleased s.allocations i e hg b hb
                  rw [if_neg (fun hh : e.address = b => hba (by rw [← hh, haddr]))] at hdec
                  omega
                rcases hmain b hb with ⟨hf2, h0⟩ | ⟨j, e2, hf2, hg2, haddr2, hcnt2⟩
                · left
                  refine ⟨by rw [hmf]; exact hf2, ?_⟩
                  show liveCountL (setReleased s.allocations i) b = 0
                  rw [hlc]
                  exact h0
                · right
                  have hji : j ≠ i := by
                    intro hh
                    subst hh
                    rw [hg] at hg2
                    have he2 : e2 = e := (Option.some.inj hg2).symm
                    subst he2
                    rw [haddr] at haddr2
                    exact hba haddr2.symm
                  refine ⟨j, e2, by rw [hmf]; exact hf2, ?_, haddr2, ?_⟩
                  · show (setReleased s.allocations i).get? j = some e2
                    rw [setReleased_get?_ne _ _ _ hji]
                    exact hg2
                  · show liveCountL (setReleased s.allocations i) b = 1
                    rw [hlc]
                    exact hcnt2

theorem run_preserves_ActiveInv (ops : List CaptureOp) :
    ∀ s : CaptureState, ActiveInv s → freshOps s ops = true →
      ActiveInv (CaptureState.run s ops) := by
  induction ops with
  | nil => intro s hInv _; exact hInv
  | cons op rest ih =>
      intro s hInv hfresh
      unfold freshOps at hfresh
      rw [Bool.and_eq_true] at hfresh
      obtain ⟨hop, hrest⟩ := hfresh
      have hstep : ActiveInv (s.step op) := by
        cases op with
        | record a nn f fl l ts tid st =>
            rw [Bool.and_eq_true] at hop
            obtain ⟨ha, hnone⟩ := hop
            exact RecordAllocation_preserves_ActiveInv s a nn f fl l ts tid st hInv
              (of_decide_eq_true ha) (Option.isNone_iff_eq_none.mp hnone)
        | release a => exact RecordDeallocation_preserves_ActiveInv s a hInv
      exact ih (s.step op) hstep hrest

theorem ActiveInv_init : ActiveInv CaptureState.init := by
  refine ⟨List.nodup_nil, rfl, ?_⟩
  intro a _
  left
  exact ⟨rfl, rfl⟩

/-- C1: the claim says every intercepted primitive sets a thread-local
in-capture flag on entry and bypasses recording when it is already set, so
that the capture pipeline's own allocations are never re-recorded and the
recording path recurses to depth at most 1.  The hooks in capture.cpp have
no such flag: with capturing on, each of the recording path's own heap
allocations re-enters the hook and is re-recorded, so the nesting exceeds
every finite bound (`mallocCallDepth` exhausts any fuel already with a
single internal allocation per record, the first conjunct), whereas the
guard the spec mandates (`guardedMallocCallDepth`, modelled from the spec)
caps the depth at exactly 1 (the second conjunct).  The code contradicts the
spec's mandated design — a code bug, since without the guard the tracer
cannot survive its own first captured allocation. -/
theorem c1_no_reentrancy_guard_recursion_unbounded :
    (∀ fuel : Nat, mallocCallDepth fuel true 1 = none) ∧
    (∀ fuel : Nat, guardedMallocCallDepth (fuel + 2) true false 1 = some 1) := by
  constructor
  · intro fuel
    induction fuel with
    | zero => rfl
    | succ n ih => simp [mallocCallDepth, ih]
  · intro fuel
    simp [guardedMallocCallDepth]

/-- C8: for each of the four `QueryResult`-returning queries, `peak_usage`
is the maximum individual size among the returned events, and `0` when the
result is empty. -/
theorem c8_peak_usage_is_per_event_max (s : StorageState) (name path : String)
    (lo hi t0 t1 : Nat) :
    peakSpec (Storage.QueryByFunction s name) ∧
    peakSpec (Storage.QueryByFile s path) ∧
    peakSpec (Storage.QueryBySizeRange s lo hi) ∧
    peakSpec (Storage.QueryByTimeRange s t0 t1) := by
  refine ⟨?_, ?_, ?_, ?_⟩
  · unfold Storage.QueryByFunction
    cases mapFind s.function_index name with
    | none => exact peakSpec_of_calc _ rfl
    | some idxs => exact peakSpec_of_calc _ rfl
  · unfold Storage.QueryByFile
    cases mapFind s.file_index path with
    | none => exact peakSpec_of_calc _ rfl
    | some idxs => exact peakSpec_of_calc _ rfl
  · exact peakSpec_of_calc _ rfl
  · exact peakSpec_of_calc _ rfl

/-- Witness for C8 at a concrete store: in `demoStore` the size-range query
returns a non-empty result and some returned event attains `peak_usage`. -/
theorem c8_peak_usage_witness :
    ∃ e ∈ (Storage.QueryBySizeRange demoStore 0 100).allocations,
      e.size = (Storage.QueryBySizeRange demoStore 0 100).peak_usage :=
  (c8_peak_usage_is_per_event_max demoStore "f" "a.c" 0 100 0 9).2.2.1.2.2 (by decide)

/-- C9: every read-only operation of the store (the four queries, the leak
set, the summary and the timeline) leaves the store's state — the event log,
all three indexes, and the configured cap — exactly as it found it. -/
theorem c9_queries_leave_store_unchanged (s : StorageState) (q : StorageQuery) :
    (Storage.QueryCall s q).1 = s := by
  cases q <;> rfl

/-- C10: `AddAllocation` evicts at most one event, namely the oldest (the
log either grows by the new event or loses exactly its head, first
conjunct); `SetMaxAllocations` touches nothing but the cap (second
conjunct); and once the cap has been lowered below the current count, any
number of subsequent inserts leaves the count unchanged — each removes the
oldest and appends one (third conjunct). -/
theorem c10_eviction_at_most_one_and_cap_lowering (s : StorageState)
    (info : AllocationInfo) (m : Nat) (es : List AllocationInfo) :
    ((Storage.AddAllocation s info).allocations = s.allocations ++ [info] ∨
      (Storage.AddAllocation s info).allocations = s.allocations.drop 1 ++ [info]) ∧
    ((Storage.SetMaxAllocations s m).allocations = s.allocations ∧
      (Storage.SetMaxAllocations s m).function_index = s.function_index ∧
      (Storage.SetMaxAllocations s m).file_index = s.file_index ∧
      (Storage.SetMaxAllocations s m).time_index = s.time_index ∧
      (Storage.SetMaxAllocations s m).max_allocations = m) ∧
    (s.allocations.length > m →
      (es.foldl Storage.AddAllocation (Storage.SetMaxAllocations s m)).allocations.length =
        s.allocations.length) := by
  refine ⟨?_, ⟨rfl, rfl, rfl, rfl, rfl⟩, ?_⟩
  · unfold Storage.AddAllocation
    by_cases h : s.allocations.length ≥ s.max_allocations
    · right; simp [h]
    · left; simp [h]
  · intro hm
    exact foldl_add_length_over_cap es (Storage.SetMaxAllocations s m) hm

/-- Witness for C10 at concrete input: lowering `demoStore`'s cap from 10 to
1 evicts nothing, and two further inserts each keep the count at 2. -/
theorem c10_eviction_witness :
    demoStore.allocations.length > 1 ∧
    ((([eventF, eventG]).foldl Storage.AddAllocation
        (Storage.SetMaxAllocations demoStore 1)).allocations.length =
      demoStore.allocations.length) :=
  ⟨by decide,
   (c10_eviction_at_most_one_and_cap_lowering demoStore eventF 1 [eventF, eventG]).2.2
     (by decide)⟩

/-- Counterexample to C5 as stated: with capturing on, `reallocate(null, n)`
does produce exactly one event, but that event is NOT identical to the one
`allocate(n)` would produce under the same timestamp, thread and stack — its
call-site label is `"realloc"` (capture.cpp:196) while the malloc hook
labels its event `"malloc"` (capture.cpp:163). -/
theorem c5_realloc_null_event_not_identical :
    (reallocHook capOn 0 7 32 1 2 []).allocations.length = 1 ∧
    (mallocHook capOn 7 32 1 2 []).allocations.length = 1 ∧
    (reallocHook capOn 0 7 32 1 2 []).allocations ≠ (mallocHook capOn 7 32 1 2 []).allocations := by
  refine ⟨rfl, rfl, ?_⟩
  decide

/-- C5 as amended: with capturing on, `reallocHook(p, n)` with non-null `p`
applies the deallocation mark for `p` first and then (when the returned
pointer is non-null) records the allocation (first conjunct);
`reallocHook(null, n)` appends exactly one event, which agrees with the
event `mallocHook(n)` appends in every field except the call-site label —
`"realloc"` instead of `"malloc"` (second through fourth conjuncts; the
live-address map is updated identically). -/
theorem c5_realloc_order_and_null_case (s : CaptureState) (hs : s.capturing = true)
    (p q n ts tid : Nat) (stack : List String) :
    (p ≠ 0 → reallocHook s p q n ts tid stack =
      (if q ≠ 0 then
        RecordAllocation (RecordDeallocation s p) q n (some "realloc") none 0 ts tid stack
       else RecordDeallocation s p)) ∧
    (q ≠ 0 → (reallocHook s 0 q n ts tid stack).allocations =
      s.allocations ++ [{ timestamp := ts, address := q, size := n, function := "realloc",
                          file := "unknown", line := 0, thread_id := tid,
                          stack_trace := stack }]) ∧
    ((mallocHook s q n ts tid stack).allocations =
      s.allocations ++ [{ timestamp := ts, address := q, size := n, function := "malloc",
                          file := "unknown", line := 0, thread_id := tid,
                          stack_trace := stack }]) ∧
    (q ≠ 0 → (reallocHook s 0 q n ts tid stack).active_allocations =
      (mallocHook s q n ts tid stack).active_allocations) := by
  refine ⟨?_, ?_, ?_, ?_⟩
  · intro hp
    simp [reallocHook, hp]
  · intro hq
    simp [reallocHook, hq, RecordAllocation, hs]
  · simp [mallocHook, RecordAllocation, hs]
  · intro hq
    simp [reallocHook, hq, mallocHook, RecordAllocation, hs]

/-- Witness for C5 (amended) at concrete input: in `capOn`,
`reallocHook(null, 32)` appends the single `"realloc"`-labelled event. -/
theorem c5_realloc_order_witness :
    (reallocHook capOn 0 7 32 1 2 []).allocations =
      capOn.allocations ++ [{ timestamp := 1, address := 7, size := 32,
                              function := "realloc", file := "unknown", line := 0,
                              thread_id := 2, stack_trace := [] }] :=
  (c5_realloc_order_and_null_case capOn rfl 3 7 32 1 2 []).2.1 (by decide)

/-- Counterexample to C6 as stated: address 5 is non-null and known (the
live-address map resolves it), yet because capturing is off `free(5)`
applies no live-to-released transition at all — the event stays live and the
state is bit-for-bit unchanged. -/
theorem c6_free_known_no_transition_when_not_capturing :
    mapFind capOffKnown.active_allocations 5 = some 0 ∧
    (freeHook capOffKnown 5).1 = capOffKnown ∧
    liveCount capOffKnown 5 = 1 := by
  decide

/-- C6 as amended: `free(null)` performs only the underlying free — no event
and no consultation of the live-address map (first conjunct); for a non-null
unknown address the state is unchanged, idempotently (second conjunct); with
capturing off the state is likewise unchanged even for a known address
(third conjunct, the correction); and with capturing on and the address
known, the hook consults the map, applies the live-to-released transition
and only afterwards calls the underlying free, as the action trace shows
(fourth conjunct). -/
theorem c6_free_cases (s : CaptureState) (p : Nat) :
    (p = 0 → freeHook s p = (s, [HookAction.callUnderlying "free" 0])) ∧
    (p ≠ 0 → mapFind s.active_allocations p = none → (freeHook s p).1 = s) ∧
    (p ≠ 0 → s.capturing = false → (freeHook s p).1 = s) ∧
    (p ≠ 0 → s.capturing = true → ∀ i, mapFind s.active_allocations p = some i →
      (freeHook s p).2 = [HookAction.consultActive p, HookAction.markReleased p,
                          HookAction.callUnderlying "free" p] ∧
      (freeHook s p).1.allocations = setReleased s.allocations i ∧
      (freeHook s p).1.active_allocations = mapErase s.active_allocations p) := by
  refine ⟨?_, ?_, ?_, ?_⟩
  · intro hp
    subst hp
    simp [freeHook]
  · intro hp hfind
    cases hc : s.capturing with
    | false => simp [freeHook, hp, RecordDeallocationTr, hc]
    | true => simp [freeHook, hp, RecordDeallocationTr, hc, hfind]
  · intro hp hc
    simp [freeHook, hp, RecordDeallocationTr, hc]
  · intro hp hc i hfind
    refine ⟨?_, ?_, ?_⟩ <;>
      simp [freeHook, hp, RecordDeallocationTr, hc, hfind]

/-- Counterexample to C4 as stated: the claim quantifies over every sequence
of `RecordAllocation` / `RecordDeallocation` calls, but recording a second
allocation at a currently-live address overwrites only the live-address map
entry (capture.cpp:96) and never releases the first event, leaving two
events in the log both live at address 5. -/
theorem c4_two_live_events_at_same_address :
    liveCount
      (RecordAllocation
        (RecordAllocation capOn 5 8 (some "malloc") none 0 1 2 [])
        5 16 (some "malloc") none 0 3 2 []) 5 = 2 := by
  decide

/-- C4 as amended: provided every recorded allocation carries a non-sentinel
address that is not currently live (which holds for any workload produced by
a real allocator, where a live address is never handed out again), at most
one live event exists per non-sentinel address after any sequence of
`RecordAllocation` / `RecordDeallocation` calls from a freshly started
capture; since every prefix of such a sequence is again such a sequence,
the bound holds at every instant. -/
theorem c4_live_address_mapping_functional (ops : List CaptureOp)
    (h : freshOps capOn ops = true) (a : Nat) (ha : a ≠ 0) :
    liveCount (CaptureState.run capOn ops) a ≤ 1 := by
  have hInvOn : ActiveInv capOn := ⟨List.nodup_nil, rfl, fun b _ => Or.inl ⟨rfl, rfl⟩⟩
  have hInv := run_preserves_ActiveInv ops capOn hInvOn h
  rcases hInv.2.2 a ha with ⟨_, h0⟩ | ⟨i, e, _, _, _, h1⟩
  · rw [h0]
    decide
  · rw [h1]

/-- Witness for C4 (amended) at concrete input: allocate at 5, free 5,
allocate at 5 again — an allocator-consistent sequence — leaves at most one
live event at address 5. -/
theorem c4_live_address_witness :
    liveCount (CaptureState.run capOn
      [CaptureOp.record 5 8 (some "malloc") none 0 1 2 [],
       CaptureOp.release 5,
       CaptureOp.record 5 16 (some "malloc") none 0 3 2 []]) 5 ≤ 1 :=
  c4_live_address_mapping_functional _ (by decide) 5 (by decide)

theorem mapFind_mapAppendIdx_self {κ : Type} [DecidableEq κ] (m : List (κ × List Nat))
    (k : κ) (i : Nat) :
    mapFind (mapAppendIdx m k i) k = some ((mapFind m k).getD [] ++ [i]) := by
  induction m with
  | nil => simp [mapAppendIdx, mapFind]
  | cons p rest ih =>
      obtain ⟨pk, pv⟩ := p
      by_cases h : pk = k
      · subst h
        simp [mapAppendIdx, mapFind]
      · simp [mapAppendIdx, mapFind, h, ih]

theorem mapFind_mapAppendIdx_ne {κ : Type} [DecidableEq κ] (m : List (κ × List Nat))
    (k k' : κ) (i : Nat) (h : k' ≠ k) :
    mapFind (mapAppendIdx m k i) k' = mapFind m k' := by
  have h' : ¬ k = k' := fun hh => h hh.symm
  induction m with
  | nil => simp [mapAppendIdx, mapFind, h']
  | cons p rest ih =>
      obtain ⟨pk, pv⟩ := p
      by_cases hp : pk = k
      · subst hp
        simp [mapAppendIdx, mapFind, h']
      · simp [mapAppendIdx, mapFind, hp, ih]

theorem fnPosAux_append (key : AllocationInfo → String) (L : List AllocationInfo)
    (e : AllocationInfo) (name : String) :
    ∀ k, fnPosAux key (L ++ [e]) name k =
      fnPosAux key L name k ++ (if key e = name then [k + L.length] else []) := by
  induction L with
  | nil => intro k; simp [fnPosAux]
  | cons x rest ih =>
      intro k
      simp only [List.cons_append, fnPosAux, List.append_eq]
      rw [ih (k + 1)]
      rw [List.append_assoc, List.length_cons]
      have harith : k + 1 + rest.length = k + (rest.length + 1) := by omega
      rw [harith]

theorem fnPosAux_mem_lb (key : AllocationInfo → String) (L : List AllocationInfo)
    (name : String) : ∀ k i, i ∈ fnPosAux key L name k → k ≤ i := by
  induction L with
  | nil => intro k i h; simp [fnPosAux] at h
  | cons x rest ih =>
      intro k i h
      simp only [fnPosAux, List.mem_append] at h
      rcases h with h | h
      · by_cases hx : key x = name
        · rw [if_pos hx] at h
          have : i = k := List.mem_singleton.mp h
          omega
        · rw [if_neg hx] at h
          cases h
      · have := ih (k + 1) i h
        omega

theorem fnPosAux_nodup (key : AllocationInfo → String) (L : List AllocationInfo)
    (name : String) : ∀ k, (fnPosAux key L name k).Nodup := by
  induction L with
  | nil => intro k; simp [fnPosAux]
  | cons x rest ih =>
      intro k
      simp only [fnPosAux]
      by_cases hx : key x = name
      · rw [if_pos hx, List.singleton_append]
        refine List.nodup_cons.mpr ⟨?_, ih (k + 1)⟩
        intro hmem
        have := fnPosAux_mem_lb key rest name (k + 1) k hmem
        omega
      · rw [if_neg hx]
        simpa using ih (k + 1)

theorem fnPosAux_resolve (key : AllocationInfo → String) (name : String)
    (B : List AllocationInfo) :
    ∀ A : List AllocationInfo, ∀ i ∈ fnPosAux key B name A.length,
      ∃ e, (A ++ B).get? i = some e ∧ key e = name := by
  induction B with
  | nil => intro A i h; simp [fnPosAux] at h
  | cons x rest ih =>
      intro A i h
      simp only [fnPosAux, List.mem_append] at h
      rcases h with h | h
      · by_cases hx : key x = name
        · rw [if_pos hx] at h
          have hi : i = A.length := List.mem_singleton.mp h
          subst hi
          refine ⟨x, ?_, hx⟩
          rw [List.get?_append_right (Nat.le_refl _)]
          simp
        · rw [if_neg hx] at h
          cases h
      · have hlen : A.length + 1 = (A ++ [x]).length := by simp
        rw [hlen] at h
        obtain ⟨e, hg, hk⟩ := ih (A ++ [x]) i h
        refine ⟨e, ?_, hk⟩
        rw [List.append_assoc] at hg
        simpa using hg

theorem fnPosAux_mem_of_get (key : AllocationInfo → String) (name : String)
    (B : List AllocationInfo) :
    ∀ A : List AllocationInfo, ∀ i e, (A ++ B).get? i = some e → A.length ≤ i →
      key e = name → i ∈ fnPosAux key B name A.length := by
  induction B with
  | nil =>
      intro A i e hget hi _
      rw [List.append_nil] at hget
      obtain ⟨hlt, _⟩ := List.get?_eq_some.mp hget
      omega
  | cons x rest ih =>
      intro A i e hget hi hk
      simp only [fnPosAux, List.mem_append]
      by_cases hie : i = A.length
      · subst hie
        have hx : x = e := by
          rw [List.get?_append_right (Nat.le_refl _)] at hget
          simpa using hget
        left
        rw [if_pos (show key x = name by rw [hx]; exact hk)]
        exact List.mem_singleton.mpr rfl
      · right
        have hi' : (A ++ [x]).length ≤ i := by
          simp only [List.length_append, List.length_singleton]
          omega
        have hget' : ((A ++ [x]) ++ rest).get? i = some e := by
          rw [List.append_assoc]
          simpa using hget
        have hmem := ih (A ++ [x]) i e hget' hi' hk
        simpa using hmem

theorem filterMap_resolveLive_fnPosAux (key : AllocationInfo → String) (name : String)
    (B : List AllocationInfo) :
    ∀ A : List AllocationInfo,
      (fnPosAux key B name A.length).filterMap (resolveLive (A ++ B)) =
        B.filter (fun e => key e == name && e.address != 0) := by
  induction B with
  | nil => intro A; simp [fnPosAux]
  | cons x rest ih =>
      intro A
      simp only [fnPosAux]
      rw [List.filterMap_append]
      have htail : (fnPosAux key rest name (A.length + 1)).filterMap
          (resolveLive (A ++ x :: rest)) =
          rest.filter (fun e => key e == name && e.address != 0) := by
        have hlen : A.length + 1 = (A ++ [x]).length := by simp
        rw [hlen]
        have hrw := ih (A ++ [x])
        rw [List.append_assoc] at hrw
        simpa using hrw
      have hhead : resolveLive (A ++ x :: rest) A.length =
          if x.address ≠ 0 then some x else none := by
        unfold resolveLive
        rw [List.get?_append_right (Nat.le_refl _)]
        simp
      rw [List.filter_cons]
      by_cases hx : key x = name
      · rw [if_pos hx]
        by_cases haddr : x.address = 0
        · simp [List.filterMap, hhead, haddr, htail, hx]
        · simp [List.filterMap, hhead, haddr, htail, hx]
      · rw [if_neg hx]
        simp [htail, hx]

theorem AddAllocation_no_evict (s : StorageState) (e : AllocationInfo)
    (h : s.allocations.length < s.max_allocations) :
    Storage.AddAllocation s e =
      { allocations := s.allocations ++ [e],
        function_index := mapAppendIdx s.function_index e.function s.allocations.length,
        file_index := mapAppendIdx s.file_index e.file s.allocations.length,
        time_index := sortByFst (s.time_index ++ [(e.timestamp, s.allocations.length)]),
        max_allocations := s.max_allocations } := by
  unfold Storage.AddAllocation
  rw [if_neg (by omega)]
  simp

theorem buildStore_append (M : Nat) (L : List AllocationInfo) (e : AllocationInfo) :
    buildStore M (L ++ [e]) = Storage.AddAllocation (buildStore M L) e := by
  unfold buildStore
  rw [List.foldl_append]
  rfl

theorem idxChar_step (key : AllocationInfo → String) (m : List (String × List Nat))
    (L : List AllocationInfo) (e : AllocationInfo)
    (hm : ∀ name, mapFind m name =
      (if fnPosAux key L name 0 = [] then none else some (fnPosAux key L name 0))) :
    ∀ name, mapFind (mapAppendIdx m (key e) L.length) name =
      (if fnPosAux key (L ++ [e]) name 0 = [] then none
       else some (fnPosAux key (L ++ [e]) name 0)) := by
  intro name
  rw [fnPosAux_append key L e name 0]
  simp only [Nat.zero_add]
  by_cases hname : name = key e
  · subst hname
    rw [mapFind_mapAppendIdx_self, hm (key e), if_pos rfl]
    by_cases hemp : fnPosAux key L (key e) 0 = []
    · rw [if_pos hemp, hemp]
      simp
    · rw [if_neg hemp]
      rw [if_neg (by simp)]
      simp
  · have hkey : ¬ key e = name := fun hh => hname hh.symm
    rw [mapFind_mapAppendIdx_ne _ _ _ _ hname, hm name, if_neg hkey]
    simp

theorem buildStore_char (M : Nat) (L : List AllocationInfo) (h : L.length ≤ M) :
    (buildStore M L).max_allocations = M ∧
    (buildStore M L).allocations = L ∧
    (∀ name, mapFind (buildStore M L).function_index name =
      (if fnPosAux (fun e => e.function) L name 0 = [] then none
       else some (fnPosAux (fun e => e.function) L name 0))) ∧
    (∀ name, mapFind (buildStore M L).file_index name =
      (if fnPosAux (fun e => e.file) L name 0 = [] then none
       else some (fnPosAux (fun e => e.file) L name 0))) := by
  induction L using List.reverseRecOn with
  | nil =>
      refine ⟨rfl, rfl, fun name => ?_, fun name => ?_⟩ <;> simp [buildStore, fnPosAux, mapFind]
  | append_singleton L e ih =>
      have hlen : L.length < M := by
        rw [List.length_append, List.length_singleton] at h
        omega
      obtain ⟨hmax, ha, hf, hfl⟩ := ih (by omega)
      rw [buildStore_append]
      rw [AddAllocation_no_evict _ _ (by rw [ha, hmax]; exact hlen)]
      rw [ha]
      exact ⟨hmax, rfl, idxChar_step (fun e => e.function) _ L e hf,
        idxChar_step (fun e => e.file) _ L e hfl⟩

theorem index_consistency (key : AllocationInfo → String) (L : List AllocationInfo)
    (m : List (String × List Nat))
    (hm : ∀ name, mapFind m name =
      (if fnPosAux key L name 0 = [] then none else some (fnPosAux key L name 0))) :
    (∀ name idxs, mapFind m name = some idxs → idxs.Nodup ∧
      ∀ i ∈ idxs, ∃ e, L.get? i = some e ∧ key e = name) ∧
    (∀ i e, L.get? i = some e → ∃ idxs, mapFind m (key e) = some idxs ∧ i ∈ idxs) := by
  constructor
  · intro name idxs hidx
    rw [hm name] at hidx
    by_cases hemp : fnPosAux key L name 0 = []
    · rw [if_pos hemp] at hidx
      cases hidx
    · rw [if_neg hemp] at hidx
      have hx : idxs = fnPosAux key L name 0 := (Option.some.inj hidx).symm
      subst hx
      refine ⟨fnPosAux_nodup key L name 0, ?_⟩
      intro i hi
      obtain ⟨e, hg, hk⟩ := fnPosAux_resolve key name L [] i (by simpa using hi)
      exact ⟨e, by simpa using hg, hk⟩
  · intro i e hget
    have hmem := fnPosAux_mem_of_get key (key e) L [] i e (by simpa using hget)
      (by simp) rfl
    have hmem' : i ∈ fnPosAux key L (key e) 0 := by simpa using hmem
    have hne : fnPosAux key L (key e) 0 ≠ [] := List.ne_nil_of_mem hmem'
    exact ⟨fnPosAux key L (key e) 0, by rw [hm (key e)]; exact if_neg hne, hmem'⟩

/-- Counterexample to C2 as stated: with cap 1, inserting `eventF` (function
`"f"`) and then `eventG` (function `"g"`) evicts `eventF` by `erase(begin())`
without rewriting the secondary indexes, so the position stored under key
`"f"` now resolves to `eventG` — querying `"f"` returns an event whose
function is `"g"`, and `eventG` is returned under both keys (a duplicated,
wrong resolution). -/
theorem c2_stale_positions_after_eviction :
    (Storage.QueryByFunction evictedStore "f").allocations = [eventG] ∧
    eventG.function = "g" ∧
    (Storage.QueryByFunction evictedStore "g").allocations = [eventG] := by
  decide

/-- C2 as amended: as long as the event count never exceeds the cap (so no
eviction has occurred), the store's secondary indexes are exact — every
stored position under a key is distinct and resolves to an event that was
inserted under that key, every event's position is stored under its own key
(hence every live event appears in each index exactly once), and the
by-function / by-file queries return exactly the live events inserted under
the queried key, in insertion order.  Once an eviction occurs this fails
(see the counterexample). -/
theorem c2_index_positions_resolve_without_eviction (L : List AllocationInfo) (M : Nat)
    (h : L.length ≤ M) (name path : String) :
    ((buildStore M L).allocations = L) ∧
    (∀ nm idxs, mapFind (buildStore M L).function_index nm = some idxs → idxs.Nodup ∧
      ∀ i ∈ idxs, ∃ e, L.get? i = some e ∧ e.function = nm) ∧
    (∀ i e, L.get? i = some e →
      ∃ idxs, mapFind (buildStore M L).function_index e.function = some idxs ∧ i ∈ idxs) ∧
    ((Storage.QueryByFunction (buildStore M L) name).allocations =
      L.filter (fun e => e.function == name && e.address != 0)) ∧
    (∀ pth idxs, mapFind (buildStore M L).file_index pth = some idxs → idxs.Nodup ∧
      ∀ i ∈ idxs, ∃ e, L.get? i = some e ∧ e.file = pth) ∧
    (∀ i e, L.get? i = some e →
      ∃ idxs, mapFind (buildStore M L).file_index e.file = some idxs ∧ i ∈ idxs) ∧
    ((Storage.QueryByFile (buildStore M L) path).allocations =
      L.filter (fun e => e.file == path && e.address != 0)) := by
  obtain ⟨hmax, ha, hf, hfl⟩ := buildStore_char M L h
  obtain ⟨hfres, hfapp⟩ := index_consistency (fun e => e.function) L _ hf
  obtain ⟨hgres, hgapp⟩ := index_consistency (fun e => e.file) L _ hfl
  have hqfun : (Storage.QueryByFunction (buildStore M L) name).allocations =
      L.filter (fun e => e.function == name && e.address != 0) := by
    by_cases hemp : fnPosAux (fun e => e.function) L name 0 = []
    · have hfind : mapFind (buildStore M L).function_index name = none := by
        rw [hf name, if_pos hemp]
      have hcoll := filterMap_resolveLive_fnPosAux (fun e => e.function) name L []
      simp only [List.length_nil, List.nil_append] at hcoll
      rw [hemp] at hcoll
      unfold Storage.QueryByFunction
      rw [hfind, ← hcoll]
      rfl
    · have hfind : mapFind (buildStore M L).function_index name =
          some (fnPosAux (fun e => e.function) L name 0) := by
        rw [hf name, if_neg hemp]
      have hcoll := filterMap_resolveLive_fnPosAux (fun e => e.function) name L []
      simp only [List.length_nil, List.nil_append] at hcoll
      unfold Storage.QueryByFunction
      rw [hfind, ha]
      simpa [mkQueryResult] using hcoll
  have hqfile : (Storage.QueryByFile (buildStore M L) path).allocations =
      L.filter (fun e => e.file == path && e.address != 0) := by
    by_cases hemp : fnPosAux (fun e => e.file) L path 0 = []
    · have hfind : mapFind (buildStore M L).file_index path = none := by
        rw [hfl path, if_pos hemp]
      have hcoll := filterMap_resolveLive_fnPosAux (fun e => e.file) path L []
      simp only [List.length_nil, List.nil_append] at hcoll
      rw [hemp] at hcoll
      unfold Storage.QueryByFile
      rw [hfind, ← hcoll]
      rfl
    · have hfind : mapFind (buildStore M L).file_index path =
          some (fnPosAux (fun e => e.file) L path 0) := by
        rw [hfl path, if_neg hemp]
      have hcoll := filterMap_resolveLive_fnPosAux (fun e => e.file) path L []
      simp only [List.length_nil, List.nil_append] at hcoll
      unfold Storage.QueryByFile
      rw [hfind, ha]
      simpa [mkQueryResult] using hcoll
  exact ⟨ha, hfres, hfapp, hqfun, hgres, hgapp, hqfile⟩

/-- Witness for C2 (amended) at concrete input: with cap 10 and two inserts
(no eviction), querying `"f"` returns exactly the live `"f"`-events. -/
theorem c2_no_eviction_witness :
    (Storage.QueryByFunction (buildStore 10 [eventF, eventG]) "f").allocations =
      [eventF, eventG].filter (fun e => e.function == "f" && e.address != 0) :=
  (c2_index_positions_resolve_without_eviction [eventF, eventG] 10 (by decide)
    "f" "a.c").2.2.2.1

theorem mapSet_absent {κ ν : Type} [DecidableEq κ] (t : List (κ × ν)) (k : κ) (v : ν)
    (h : mapFind t k = none) : mapSet t k v = t ++ [(k, v)] := by
  induction t with
  | nil => rfl
  | cons p rest ih =>
      obtain ⟨pk, pv⟩ := p
      by_cases hp : pk = k
      · subst hp
        simp [mapFind] at h
      · have h' : mapFind rest k = none := by simpa [mapFind, hp] using h
        simp [mapSet, hp, ih h']

theorem mapErase_absent {κ ν : Type} [DecidableEq κ] (t : List (κ × ν)) (k : κ)
    (h : mapFind t k = none) : mapErase t k = t := by
  induction t with
  | nil => rfl
  | cons p rest ih =>
      obtain ⟨pk, pv⟩ := p
      by_cases hp : pk = k
      · subst hp
        simp [mapFind] at h
      · have h' : mapFind rest k = none := by simpa [mapFind, hp] using h
        simp [mapErase, hp, ih h']

theorem trackSum_cons (k : Nat) (w : AllocationTracking) (t : List (Nat × AllocationTracking))
    (f : String) :
    trackSum ((k, w) :: t) f = (if w.function = f then w.size else 0) + trackSum t f := by
  unfold trackSum
  by_cases h : w.function = f
  · simp [List.filter_cons, h]
  · simp [List.filter_cons, h]

theorem trackSum_append_single (t : List (Nat × AllocationTracking)) (k : Nat)
    (w : AllocationTracking) (f : String) :
    trackSum (t ++ [(k, w)]) f = trackSum t f + (if w.function = f then w.size else 0) := by
  unfold trackSum
  rw [List.filter_append]
  by_cases h : w.function = f
  · simp [h]
  · simp [h]

theorem trackSum_mapErase (t : List (Nat × AllocationTracking)) (a : Nat)
    (v : AllocationTracking) (hfind : mapFind t a = some v) (f : String) :
    trackSum t f = trackSum (mapErase t a) f + (if v.function = f then v.size else 0) := by
  induction t with
  | nil => simp [mapFind] at hfind
  | cons p rest ih =>
      obtain ⟨pk, pv⟩ := p
      by_cases hp : pk = a
      · subst hp
        have hv : pv = v := by
          simpa [mapFind] using hfind
        subst hv
        rw [show mapErase ((pk, pv) :: rest) pk = rest by simp [mapErase]]
        rw [trackSum_cons]
        omega
      · have hfind' : mapFind rest a = some v := by simpa [mapFind, hp] using hfind
        rw [show mapErase ((pk, pv) :: rest) a = (pk, pv) :: mapErase rest a by
          simp [mapErase, hp]]
        rw [trackSum_cons, trackSum_cons, ih hfind']
        omega

theorem currentOf_statsAdd (s : StatsState) (info : AllocationInfo) (f : String) :
    currentOf (Stats.AddAllocation s info) f =
      (if info.function = f then currentOf s f + info.size else currentOf s f) := by
  unfold Stats.AddAllocation currentOf
  by_cases h : info.function = f
  · subst h
    rw [if_pos rfl, mapFind_mapSet_self]
    rfl
  · rw [if_neg h, mapFind_mapSet_ne _ _ _ _ (fun hh => h hh.symm)]

theorem totalOf_statsAdd (s : StatsState) (info : AllocationInfo) (f : String) :
    totalOf (Stats.AddAllocation s info) f =
      totalOf s f + (if info.function = f then info.size else 0) := by
  unfold Stats.AddAllocation totalOf
  by_cases h : info.function = f
  · subst h
    rw [if_pos rfl, mapFind_mapSet_self]
    rfl
  · rw [if_neg h, mapFind_mapSet_ne _ _ _ _ (fun hh => h hh.symm)]
    omega

theorem statsAdd_tracking (s : StatsState) (info : AllocationInfo) :
    (Stats.AddAllocation s info).allocation_tracking =
      mapSet s.allocation_tracking info.address
        { function := info.function, size := info.size, stack_trace := info.stack_trace } := rfl

theorem statsDealloc_notfound (s : StatsState) (a : Nat)
    (h : mapFind s.allocation_tracking a = none) : Stats.RecordDeallocation s a = s := by
  unfold Stats.RecordDeallocation
  rw [h]

theorem statsDealloc_found (s : StatsState) (a : Nat) (v : AllocationTracking)
    (hfind : mapFind s.allocation_tracking a = some v) :
    Stats.RecordDeallocation s a =
      { s with
        function_stats :=
          mapSet s.function_stats v.function
            (if ((mapFind s.function_stats v.function).getD FunctionStats.init).current_allocated
                ≥ v.size then
              { (mapFind s.function_stats v.function).getD FunctionStats.init with
                current_allocated :=
                  ((mapFind s.function_stats v.function).getD
                    FunctionStats.init).current_allocated - v.size }
             else (mapFind s.function_stats v.function).getD FunctionStats.init),
        allocation_tracking := mapErase s.allocation_tracking a } := by
  unfold Stats.RecordDeallocation
  rw [hfind]

theorem stats_step_char (s : StatsState) (op : StatsOp)
    (hInv : ∀ f, currentOf s f = trackSum s.allocation_tracking f)
    (hfreshOp : (match op with
      | StatsOp.alloc info => (mapFind s.allocation_tracking info.address).isNone
      | StatsOp.dealloc _ => true) = true) :
    (∀ f, currentOf (Stats.step s op) f = trackSum (Stats.step s op).allocation_tracking f) ∧
    (∀ f, totalOf (Stats.step s op) f = totalOf s f +
      (match op with
       | StatsOp.alloc info => if info.function = f then info.size else 0
       | StatsOp.dealloc _ => 0)) ∧
    (Stats.step s op).allocation_tracking = ghostStep s.allocation_tracking op := by
  cases op with
  | alloc info =>
      have habs : mapFind s.allocation_tracking info.address = none :=
        Option.isNone_iff_eq_none.mp hfreshOp
      refine ⟨?_, ?_, rfl⟩
      · intro f
        show currentOf (Stats.AddAllocation s info) f =
          trackSum (Stats.AddAllocation s info).allocation_tracking f
        rw [currentOf_statsAdd, statsAdd_tracking, mapSet_absent _ _ _ habs,
          trackSum_append_single, hInv f]
        by_cases h : info.function = f
        · rw [if_pos h, if_pos h]
        · rw [if_neg h, if_neg h]
          omega
      · intro f
        exact totalOf_statsAdd s info f
  | dealloc a =>
      cases hfind : mapFind s.allocation_tracking a with
      | none =>
          have hs : Stats.step s (StatsOp.dealloc a) = s := statsDealloc_notfound s a hfind
          have hg : ghostStep s.allocation_tracking (StatsOp.dealloc a) =
              s.allocation_tracking := mapErase_absent _ _ hfind
          rw [hs, hg]
          exact ⟨hInv, fun f => rfl, rfl⟩
      | some v =>
          have hsum := trackSum_mapErase s.allocation_tracking a v hfind
          have hguard : ((mapFind s.function_stats v.function).getD
              FunctionStats.init).current_allocated ≥ v.size := by
            have h1 : currentOf s v.function = trackSum s.allocation_tracking v.function :=
              hInv v.function
            have h2 := hsum v.function
            rw [if_pos rfl] at h2
            unfold currentOf at h1
            omega
          have hs := statsDealloc_found s a v hfind
          refine ⟨?_, ?_, ?_⟩
          · intro f
            show currentOf (Stats.RecordDeallocation s a) f =
              trackSum (Stats.RecordDeallocation s a).allocation_tracking f
            rw [hs]
            by_cases h : v.function = f
            · subst h
              show ((mapFind (mapSet s.function_stats v.function _)
                  v.function).getD FunctionStats.init).current_allocated =
                trackSum (mapErase s.allocation_tracking a) v.function
              rw [mapFind_mapSet_self]
              rw [if_pos hguard]
              have h2 := hsum v.function
              rw [if_pos rfl] at h2
              have h1 : currentOf s v.function = trackSum s.allocation_tracking v.function :=
                hInv v.function
              unfold currentOf at h1
              show ((mapFind s.function_stats v.function).getD
                  FunctionStats.init).current_allocated - v.size =
                trackSum (mapErase s.allocation_tracking a) v.function
              omega
            · show ((mapFind (mapSet s.function_stats v.function _)
                  f).getD FunctionStats.init).current_allocated =
                trackSum (mapErase s.allocation_tracking a) f
              rw [mapFind_mapSet_ne _ _ _ _ (fun hh => h hh.symm)]
              have h2 := hsum f
              rw [if_neg h] at h2
              have h1 : currentOf s f = trackSum s.allocation_tracking f := hInv f
              unfold currentOf at h1
              omega
          · intro f
            show totalOf (Stats.RecordDeallocation s a) f = totalOf s f + 0
            rw [hs]
            by_cases h : v.function = f
            · subst h
              show ((mapFind (mapSet s.function_stats v.function _)
                  v.function).getD FunctionStats.init).total_allocated = _
              rw [mapFind_mapSet_self]
              rw [if_pos hguard]
              simp [totalOf]
            · show ((mapFind (mapSet s.function_stats v.function _)
                  f).getD FunctionStats.init).total_allocated = _
              rw [mapFind_mapSet_ne _ _ _ _ (fun hh => h hh.symm)]
              show totalOf s f = totalOf s f + 0
              omega
          · show (Stats.RecordDeallocation s a).allocation_tracking =
              mapErase s.allocation_tracking a
            rw [hs]

theorem stats_run_char (ops : List StatsOp) :
    ∀ s : StatsState, (∀ f, currentOf s f = trackSum s.allocation_tracking f) →
      freshStatsOps s.allocation_tracking ops = true →
      (∀ f, currentOf (Stats.run s ops) f =
        trackSum (Stats.run s ops).allocation_tracking f) ∧
      (∀ f, totalOf (Stats.run s ops) f = totalOf s f + allocTotal ops f) ∧
      (Stats.run s ops).allocation_tracking = ghostRun s.allocation_tracking ops := by
  induction ops with
  | nil =>
      intro s hInv _
      refine ⟨hInv, fun f => ?_, rfl⟩
      show totalOf s f = totalOf s f + 0
      omega
  | cons op rest ih =>
      intro s hInv hfresh
      unfold freshStatsOps at hfresh
      rw [Bool.and_eq_true] at hfresh
      obtain ⟨hop, hrest⟩ := hfresh
      obtain ⟨hstep_inv, hstep_tot, hstep_track⟩ := stats_step_char s op hInv hop
      have hrest' : freshStatsOps (Stats.step s op).allocation_tracking rest = true := by
        rw [hstep_track]
        exact hrest
      obtain ⟨hcur, htot, htrack⟩ := ih (Stats.step s op) hstep_inv hrest'
      refine ⟨hcur, ?_, ?_⟩
      · intro f
        show totalOf (Stats.run (Stats.step s op) rest) f = totalOf s f + allocTotal (op :: rest) f
        rw [htot f, hstep_tot f]
        cases op with
        | alloc info => simp [allocTotal]; omega
        | dealloc a => simp [allocTotal]
      · show (Stats.run (Stats.step s op) rest).allocation_tracking =
          ghostRun s.allocation_tracking (op :: rest)
        rw [htrack, hstep_track]
        rfl

/-- C3: for every allocator-consistent workload (each allocation is
submitted at an address not currently live, as a real allocator guarantees),
the aggregator's counters reconcile with the event stream: for each function
`f`, `total_allocated` equals the sum of the sizes of all allocation events
labelled `f`, and `current_allocated` equals the sum of the sizes of the
events labelled `f` that are still live — the trace-level live table
`ghostRun` records exactly the allocations whose matching free has not been
observed, and each observed free of a tracked address decrements the
counter by the freed allocation's size. -/
theorem c3_stats_counters_reconcile (ops : List StatsOp)
    (h : freshStatsOps [] ops = true) (f : String) :
    totalOf (Stats.run StatsState.init ops) f = allocTotal ops f ∧
    currentOf (Stats.run StatsState.init ops) f = trackSum (ghostRun [] ops) f := by
  obtain ⟨hcur, htot, htrack⟩ :=
    stats_run_char ops StatsState.init (fun g => rfl) h
  constructor
  · rw [htot f]
    show 0 + allocTotal ops f = allocTotal ops f
    exact Nat.zero_add _
  · rw [hcur f, htrack]
    rfl

/-- Witness for C3 at concrete input: allocate 10 bytes from `"f"`, 20 from
`"g"`, then free the `"f"` allocation — the `"f"` totals reconcile. -/
theorem c3_stats_witness :
    totalOf (Stats.run StatsState.init
      [StatsOp.alloc eventF, StatsOp.alloc eventG, StatsOp.dealloc 1]) "f" =
      allocTotal [StatsOp.alloc eventF, StatsOp.alloc eventG, StatsOp.dealloc 1] "f" ∧
    currentOf (Stats.run StatsState.init
      [StatsOp.alloc eventF, StatsOp.alloc eventG, StatsOp.dealloc 1]) "f" =
      trackSum (ghostRun [] [StatsOp.alloc eventF, StatsOp.alloc eventG,
        StatsOp.dealloc 1]) "f" :=
  c3_stats_counters_reconcile
    [StatsOp.alloc eventF, StatsOp.alloc eventG, StatsOp.dealloc 1] (by decide) "f"

theorem importEntry_exportEntry (info : AllocationInfo) :
    importEntry (exportEntry info) = info := rfl

theorem ImportFromJson_allocations (items : List ExportedAllocation) :
    ∀ s : StorageState,
      (Storage.ImportFromJson s items).allocations = s.allocations ++ items.map importEntry := by
  induction items with
  | nil => intro s; simp [Storage.ImportFromJson]
  | cons it rest ih =>
      intro s
      show (Storage.ImportFromJson (importOne s it) rest).allocations = _
      rw [ih]
      simp [importOne]

/-- C7: importing the JSON array produced by exporting a store `S` into a
fresh store reproduces `S`'s event log field for field (first conjunct) — in
particular every non-address field round-trips unchanged and the address
value round-trips through its integer serialization — so `GetLeaks` over the
imported store is the very same list, with the same count and the same total
bytes, as over `S` (second through fourth conjuncts); and a released event
(address already cleared to the sentinel) is dumped with `address = 0`
(fifth conjunct). -/
theorem c7_export_import_round_trip (s : StorageState) (cap : Nat) :
    (Storage.ImportFromJson (StorageState.init cap) (Storage.ExportToJson s)).allocations =
      s.allocations ∧
    Storage.GetLeaks (Storage.ImportFromJson (StorageState.init cap) (Storage.ExportToJson s)) =
      Storage.GetLeaks s ∧
    (Storage.GetLeaks (Storage.ImportFromJson (StorageState.init cap)
        (Storage.ExportToJson s))).length = (Storage.GetLeaks s).length ∧
    ((Storage.GetLeaks (Storage.ImportFromJson (StorageState.init cap)
        (Storage.ExportToJson s))).map (fun e => e.size)).sum =
      ((Storage.GetLeaks s).map (fun e => e.size)).sum ∧
    (∀ info ∈ s.allocations, info.address = 0 → (exportEntry info).address = 0) := by
  have halloc : (Storage.ImportFromJson (StorageState.init cap)
      (Storage.ExportToJson s)).allocations = s.allocations := by
    rw [ImportFromJson_allocations]
    simp only [Storage.ExportToJson, StorageState.init, List.map_map, List.nil_append]
    have hcomp : importEntry ∘ exportEntry = id := by
      funext info
      exact importEntry_exportEntry info
    rw [hcomp, List.map_id]
  have hleaks : Storage.GetLeaks (Storage.ImportFromJson (StorageState.init cap)
      (Storage.ExportToJson s)) = Storage.GetLeaks s := by
    unfold Storage.GetLeaks
    rw [halloc]
  refine ⟨halloc, hleaks, by rw [hleaks], by rw [hleaks], ?_⟩
  intro info _ h0
  simp [exportEntry, h0]

/-- Witness for C7 at concrete input: the released fixture event of
`storeWithReleased` is dumped with address 0. -/
theorem c7_round_trip_witness : (exportEntry releasedEventG).address = 0 :=
  (c7_export_import_round_trip storeWithReleased 10).2.2.2.2 releasedEventG
    (by decide) (by decide)

/-- Witness for C6 (amended) at concrete input: freeing the known live
address 5 in `capOnKnown` emits consult, mark-released, underlying-free in
that order and applies the transition. -/
theorem c6_free_cases_witness :
    (freeHook capOnKnown 5).2 = [HookAction.consultActive 5, HookAction.markReleased 5,
                                 HookAction.callUnderlying "free" 5] ∧
    (freeHook capOnKnown 5).1.allocations = setReleased capOnKnown.allocations 0 ∧
    (freeHook capOnKnown 5).1.active_allocations = mapErase capOnKnown.active_allocations 5 :=
  (c6_free_cases capOnKnown 5).2.2.2 (by decide) rfl 0 (by decide)

end MemTracer
